import Mathlib

/-!
Verification of the board model, solver and generator of a 9×9 sudoku
program (`src/sudoku.rs`).  The Rust code is embedded shallowly: the grid
is a function `Fin 9 → Fin 9 → Nat` (cell values are `u8`, used without
overflow), the per-cell hint array `[bool; 9]` becomes `Fin 9 → Bool`
(index `k` stands for digit `k+1`, matching the `Index<u8>` impl that
subtracts one), and the imperative mutation is explicit state passing.
-/

set_option maxRecDepth 8000

namespace RSudoku

/-- A 9×9 grid of cell values, `grid: [[u8; 9]; 9]` in the source.
`0` is an empty cell. -/
abbrev Grid := Fin 9 → Fin 9 → Nat

/-- The `Sudoku` struct: the grid together with the per-cell hint
(candidate) sets.  `hints r c k = true` means digit `k+1` is a stored
candidate at `(r, c)` (Rust `self.hints[r][c][k+1]`). -/
structure Sudoku where
  grid : Grid
  hints : Fin 9 → Fin 9 → Fin 9 → Bool

instance : DecidableEq Sudoku := fun a b =>
  decidable_of_iff (a.grid = b.grid ∧ a.hints = b.hints)
    (by cases a; cases b; simp)

instance : Inhabited Sudoku := ⟨{ grid := fun _ _ => 0, hints := fun _ _ _ => false }⟩

/-- The error kinds of the program (`errors::ErrorKind` restricted to the
constructors the sudoku module produces, with the payloads of the
formatted parse messages made explicit). -/
inductive SudokuError
  /-- `ErrorKind::InvalidSudoku`. -/
  | invalidSudoku
  /-- `ErrorKind::Parse`: unexpected character `c` at position `(row, col)`. -/
  | parseChar (c : Char) (row col : Nat)
  /-- `ErrorKind::Parse`: unexpected end of input at position `(row, col)`. -/
  | parseEnd (row col : Nat)
  /-- `ErrorKind::Parse`: unexpected character `c` at end of sudoku. -/
  | parseTrailing (c : Char)
deriving DecidableEq

/-- `Sudoku::is_valid_at`.  Reads only the grid, so it is defined on
`Grid`.  The two conjuncts are the box loop and the row/column loop of
the source; an early `return false` becomes a failed conjunct. -/
def is_valid_at (g : Grid) (n : Nat) (row col : Fin 9) : Bool :=
  if 9 < n then false
  else
    decide (∀ i j : Fin 9, i.val / 3 = row.val / 3 → j.val / 3 = col.val / 3 →
        n = g i j → (i, j) = (row, col)) &&
    decide (∀ i : Fin 9, (n = g i col → i = row) ∧ (n = g row i → i = col))

/-- `Sudoku::from_grid`.  The initialization loop never mutates the grid,
and the hint updates at distinct cells are independent, so the loop is
expressed pointwise: a nonzero invalid entry anywhere yields the error,
otherwise each empty cell receives exactly its valid digits (cells that
hold a given keep the all-false hints of `Annotations::new`). -/
def from_grid (g : Grid) : Except SudokuError Sudoku :=
  if ∀ i j : Fin 9, g i j ≠ 0 → is_valid_at g (g i j) i j = true then
    Except.ok
      { grid := g
        hints := fun i j k => if g i j ≠ 0 then false else is_valid_at g (k.val + 1) i j }
  else Except.error SudokuError.invalidSudoku

/-- Writing value `v` into cell `(row, col)` of a grid. -/
def setCell (g : Grid) (row col : Fin 9) (v : Nat) : Grid :=
  fun i j => if i = row ∧ j = col then v else g i j

/-- Membership of `(i, j)` in the region touched by the box loop plus the
row/column loops centred at `(row, col)` (this region contains
`(row, col)` itself, exactly as the Rust loops do). -/
def inUnit (i j row col : Fin 9) : Prop :=
  (i.val / 3 = row.val / 3 ∧ j.val / 3 = col.val / 3) ∨ i = row ∨ j = col

instance (i j row col : Fin 9) : Decidable (inUnit i j row col) := by
  unfold inUnit; infer_instance

/-- `Sudoku::remove_at`, returning the removed entry together with the new
state.  After the initial clearing of the cell the grid is no longer
mutated, and every hint update in the three loops only ever sets a bit to
`true`, guarded by `is_valid_at` (which reads only the grid); hence the
sequential updates are order-independent and are expressed pointwise as a
disjunction: previous bit, the "add `last` back" loops over the box, row
and column, and the final recomputation of the removed cell itself. -/
def remove_at (s : Sudoku) (row col : Fin 9) : Nat × Sudoku :=
  let last := s.grid row col
  let g' := setCell s.grid row col 0
  if last = 0 then (0, { s with grid := g' })
  else
    (last,
      { grid := g'
        hints := fun i j k =>
          s.hints i j k ||
            (decide (k.val + 1 = last ∧ inUnit i j row col) && is_valid_at g' last i j) ||
            (decide (i = row ∧ j = col) && is_valid_at g' (k.val + 1) row col) })

/-- `Sudoku::put_at`, modelling the body after the
`assert!(1 <= n && n <= 9)`; theorems about it carry that precondition.
It first removes the current entry, then writes `n`, clears the cell's
own hints wholesale and clears bit `n` throughout the box, row and
column. -/
def put_at (s : Sudoku) (n : Nat) (row col : Fin 9) : Sudoku :=
  let s0 := (remove_at s row col).2
  { grid := setCell s0.grid row col n
    hints := fun i j k =>
      if i = row ∧ j = col then false
      else if k.val + 1 = n ∧ inUnit i j row col then false
      else s0.hints i j k }

/-- `Sudoku::is_solved`: every cell is occupied and valid at its own
position. -/
def is_solved (s : Sudoku) : Bool :=
  decide (∀ i j : Fin 9, s.grid i j ≠ 0 ∧ is_valid_at s.grid (s.grid i j) i j = true)

/-- `Annotations::count` (the `i32` result is always in `0..=9`). -/
def hintCount (h : Fin 9 → Bool) : Nat :=
  (List.finRange 9).foldl (fun n k => if h k then n + 1 else n) 0

/-- `Annotations::lowest`: the smallest set digit. -/
def lowest (h : Fin 9 → Bool) : Option Nat :=
  ((List.finRange 9).find? fun k => h k).map fun k => k.val + 1

/-- `Annotations::list`: all set digits in ascending order. -/
def hintList (h : Fin 9 → Bool) : List Nat :=
  ((List.finRange 9).filter fun k => h k).map fun k => k.val + 1

/-- All 81 cells in row-major order (the iteration order of the nested
`for i in 0..9 { for j in 0..9 { ... } }` loops). -/
def allCells : List (Fin 9 × Fin 9) :=
  (List.finRange 9).flatMap fun i => (List.finRange 9).map fun j => (i, j)

/-- The loop body of `Sudoku::find_min_poss`: keep the running
`(min, row, col)` unless the scanned cell is empty with a strictly
smaller hint count. -/
def minStep (s : Sudoku) (acc : Nat × Fin 9 × Fin 9) (p : Fin 9 × Fin 9) :
    Nat × Fin 9 × Fin 9 :=
  let cnt := hintCount (s.hints p.1 p.2)
  if s.grid p.1 p.2 = 0 ∧ cnt < acc.1 then (cnt, p.1, p.2) else acc

/-- `Sudoku::find_min_poss`: row-major scan keeping the first empty cell
of strictly smallest hint count, starting from the sentinel count `10`. -/
def find_min_poss (s : Sudoku) : Option (Fin 9 × Fin 9) :=
  let r := allCells.foldl (minStep s) (10, 0, 0)
  if r.1 = 10 then none else some r.2

/-- The peers of `(row, col)`: the cells sharing its row, column or 3×3
box, the cell itself excluded (spec §3). -/
def isPeer (i j row col : Fin 9) : Prop :=
  (i, j) ≠ (row, col) ∧ inUnit i j row col

instance (i j row col : Fin 9) : Decidable (isPeer i j row col) := by
  unfold isPeer; infer_instance

theorem isPeer_symm {i j row col : Fin 9} (h : isPeer i j row col) : isPeer row col i j := by
  rcases h with ⟨hne, hu⟩
  refine ⟨fun hc => hne ?_, ?_⟩
  · rcases Prod.mk.injEq .. ▸ hc with ⟨h1, h2⟩
    rw [h1, h2]
  · rcases hu with ⟨h1, h2⟩ | h1 | h1
    · exact Or.inl ⟨h1.symm, h2.symm⟩
    · exact Or.inr (Or.inl h1.symm)
    · exact Or.inr (Or.inr h1.symm)

/-- `is_valid_at` says: the digit is at most 9 and no peer currently holds
it (the cell itself is excluded by the `(i, j) != (row, col)` /
`i != row` / `i != col` guards of the source). -/
theorem is_valid_at_iff (g : Grid) (n : Nat) (row col : Fin 9) :
    is_valid_at g n row col = true ↔
      n ≤ 9 ∧ ∀ i j : Fin 9, isPeer i j row col → g i j ≠ n := by
  unfold is_valid_at
  split
  · next h9 =>
    constructor
    · intro h; exact absurd h (by simp)
    · rintro ⟨h1, -⟩; omega
  · next h9 =>
    have h9' : n ≤ 9 := by omega
    simp only [Bool.and_eq_true, decide_eq_true_eq]
    constructor
    · rintro ⟨hbox, hrc⟩
      refine ⟨h9', ?_⟩
      rintro i j ⟨hne, hcase⟩ hgn
      rcases hcase with ⟨hbi, hbj⟩ | hi | hj
      · exact hne (hbox i j hbi hbj hgn.symm)
      · subst hi
        exact hne (by rw [(hrc j).2 (by rw [hgn])])
      · subst hj
        exact hne (by rw [(hrc i).1 (by rw [hgn])])
    · rintro ⟨-, hp⟩
      constructor
      · intro i j hbi hbj hgn
        by_contra hne
        exact hp i j ⟨hne, Or.inl ⟨hbi, hbj⟩⟩ hgn.symm
      · intro i
        constructor
        · intro hgn
          by_contra hir
          exact hp i col ⟨by simp [hir], Or.inr (Or.inr rfl)⟩ hgn.symm
        · intro hgn
          by_contra hic
          exact hp row i ⟨by simp [hic], Or.inr (Or.inl rfl)⟩ hgn.symm

/-- Boolean form of `is_valid_at_iff`, convenient for rewriting. -/
theorem is_valid_at_eq_decide (g : Grid) (n : Nat) (row col : Fin 9) :
    is_valid_at g n row col
      = decide (n ≤ 9 ∧ ∀ i j : Fin 9, isPeer i j row col → g i j ≠ n) := by
  rcases Bool.eq_false_or_eq_true (is_valid_at g n row col) with h | h <;> rw [h]
  · symm; rw [decide_eq_true_eq]
    exact (is_valid_at_iff g n row col).mp h
  · symm; rw [decide_eq_false_iff_not]
    intro hc
    rw [(is_valid_at_iff g n row col).mpr hc] at h
    exact Bool.noConfusion h

/-- Validity at `(row, col)` only inspects the peers of `(row, col)`. -/
theorem is_valid_at_congr {g1 g2 : Grid} (n : Nat) (row col : Fin 9)
    (h : ∀ i j, isPeer i j row col → g1 i j = g2 i j) :
    is_valid_at g1 n row col = is_valid_at g2 n row col := by
  rw [is_valid_at_eq_decide, is_valid_at_eq_decide]
  apply decide_eq_decide.mpr
  apply and_congr_right
  intro _
  constructor
  · intro hpe i j hp; rw [← h i j hp]; exact hpe i j hp
  · intro hpe i j hp; rw [h i j hp]; exact hpe i j hp

theorem setCell_same (g : Grid) (row col : Fin 9) (v : Nat) :
    setCell g row col v row col = v := by
  simp [setCell]

theorem setCell_of_ne {i j row col : Fin 9} (g : Grid) (v : Nat)
    (h : ¬(i = row ∧ j = col)) : setCell g row col v i j = g i j := by
  simp [setCell, h]

theorem setCell_self (g : Grid) (row col : Fin 9) (v : Nat) (h : g row col = v) :
    setCell g row col v = g := by
  funext i j
  unfold setCell
  split
  · next hij =>
    rcases hij with ⟨hi, hj⟩; subst hi; subst hj; exact h.symm
  · rfl

theorem setCell_setCell (g : Grid) (row col : Fin 9) (a b : Nat) :
    setCell (setCell g row col a) row col b = setCell g row col b := by
  funext i j
  unfold setCell
  split <;> rfl

/-- Overwriting one cell with a value `v` does not change validity of a
digit `n` distinct from both the old and the new value of that cell. -/
theorem is_valid_at_setCell_of_ne (g : Grid) (r c row col : Fin 9) (v n : Nat)
    (hv : v ≠ n) (hold : g r c ≠ n) :
    is_valid_at (setCell g r c v) n row col = is_valid_at g n row col := by
  rw [is_valid_at_eq_decide, is_valid_at_eq_decide]
  apply decide_eq_decide.mpr
  apply and_congr_right
  intro _
  have key : ∀ i j : Fin 9, setCell g r c v i j ≠ n ↔ g i j ≠ n := by
    intro i j
    by_cases hij : i = r ∧ j = c
    · rcases hij with ⟨hi, hj⟩; subst hi; subst hj
      rw [setCell_same]
      exact ⟨fun _ => hold, fun _ => hv⟩
    · rw [setCell_of_ne g v hij]
  constructor
  · intro hpe i j hp; exact (key i j).mp (hpe i j hp)
  · intro hpe i j hp; exact (key i j).mpr (hpe i j hp)

/-- `remove_at` always returns the previous content of the cell. -/
theorem remove_at_fst (s : Sudoku) (row col : Fin 9) :
    (remove_at s row col).1 = s.grid row col := by
  unfold remove_at
  dsimp only
  split
  · next h => exact h.symm
  · rfl

theorem remove_at_grid (s : Sudoku) (row col : Fin 9) :
    (remove_at s row col).2.grid = setCell s.grid row col 0 := by
  unfold remove_at
  dsimp only
  split <;> rfl

theorem remove_at_hints_of_ne (s : Sudoku) (row col : Fin 9)
    (h : s.grid row col ≠ 0) :
    (remove_at s row col).2.hints = fun i j k =>
      s.hints i j k ||
        (decide (k.val + 1 = s.grid row col ∧ inUnit i j row col) &&
          is_valid_at (setCell s.grid row col 0) (s.grid row col) i j) ||
        (decide (i = row ∧ j = col) &&
          is_valid_at (setCell s.grid row col 0) (k.val + 1) row col) := by
  unfold remove_at
  dsimp only
  split
  · next h0 => exact absurd h0 h
  · rfl

theorem remove_at_hints_of_eq (s : Sudoku) (row col : Fin 9)
    (h : s.grid row col = 0) :
    (remove_at s row col).2.hints = s.hints := by
  unfold remove_at
  dsimp only
  split
  · rfl
  · next h0 => exact absurd h h0

/-- Removing from an already-empty cell returns `0` and leaves the state
unchanged (the early `return 0` of the source). -/
theorem sudoku_ext {a b : Sudoku} (hg : a.grid = b.grid)
    (hh : a.hints = b.hints) : a = b := by
  cases a; cases b
  cases hg; cases hh
  rfl

theorem remove_at_of_empty (s : Sudoku) (row col : Fin 9)
    (h : s.grid row col = 0) :
    remove_at s row col = (0, s) := by
  have hg : (remove_at s row col).2.grid = s.grid := by
    rw [remove_at_grid]
    exact setCell_self s.grid row col 0 h
  have hfst : (remove_at s row col).1 = 0 := by rw [remove_at_fst, h]
  have hsnd : (remove_at s row col).2 = s :=
    sudoku_ext hg (remove_at_hints_of_eq s row col h)
  calc remove_at s row col
      = ((remove_at s row col).1, (remove_at s row col).2) := rfl
    _ = (0, s) := by rw [hfst, hsnd]

theorem put_at_grid (s : Sudoku) (n : Nat) (row col : Fin 9) :
    (put_at s n row col).grid = setCell s.grid row col n := by
  show setCell (remove_at s row col).2.grid row col n = _
  rw [remove_at_grid, setCell_setCell]

theorem put_at_hints (s : Sudoku) (n : Nat) (row col : Fin 9) :
    (put_at s n row col).hints = fun i j k =>
      if i = row ∧ j = col then false
      else if k.val + 1 = n ∧ inUnit i j row col then false
      else (remove_at s row col).2.hints i j k := rfl

/-- The empty-cell half of the spec's candidate invariant: each empty
cell's hint set is exactly the set of digits currently valid there. -/
def emptyExact (s : Sudoku) : Prop :=
  ∀ r c : Fin 9, s.grid r c = 0 →
    ∀ k : Fin 9, s.hints r c k = is_valid_at s.grid (k.val + 1) r c

/-- Soundness of the stored hints at every cell, occupied cells included:
a set hint bit is always a digit no peer currently holds. -/
def hintSound (s : Sudoku) : Prop :=
  ∀ r c k : Fin 9, s.hints r c k = true → is_valid_at s.grid (k.val + 1) r c = true

theorem pair_ne_iff {i j row col : Fin 9} :
    ((i, j) ≠ (row, col)) ↔ ¬(i = row ∧ j = col) := by
  rw [ne_eq, Prod.mk.injEq]

theorem from_grid_ok {g : Grid} {s : Sudoku} (h : from_grid g = Except.ok s) :
    s.grid = g ∧
      s.hints = fun i j k => if g i j ≠ 0 then false else is_valid_at g (k.val + 1) i j := by
  unfold from_grid at h
  split at h
  · injection h with h'
    rw [← h']
    exact ⟨rfl, rfl⟩
  · exact absurd h (by simp)

theorem from_grid_ok_given_valid {g : Grid} {s : Sudoku}
    (h : from_grid g = Except.ok s) :
    ∀ i j : Fin 9, g i j ≠ 0 → is_valid_at g (g i j) i j = true := by
  unfold from_grid at h
  split at h
  · next hv => exact hv
  · exact absurd h (by simp)

theorem from_grid_inv {g : Grid} {s : Sudoku} (h : from_grid g = Except.ok s) :
    emptyExact s ∧ hintSound s := by
  rcases from_grid_ok h with ⟨hgrid, hhints⟩
  constructor
  · intro r c hrc k
    rw [hgrid] at hrc ⊢
    simp [hhints, hrc]
  · intro r c k hbit
    rw [hgrid]
    by_cases hz : g r c = 0
    · simp only [hhints, hz] at hbit
      simpa using hbit
    · simp [hhints, hz] at hbit

/-- Clearing any cell can only enlarge the set of valid digits (for
nonzero digits). -/
theorem is_valid_at_clear_mono (g : Grid) (row col : Fin 9) (n : Nat) (hn : n ≠ 0)
    (i j : Fin 9) (h : is_valid_at g n i j = true) :
    is_valid_at (setCell g row col 0) n i j = true := by
  rcases (is_valid_at_iff g n i j).mp h with ⟨h9, hp⟩
  refine (is_valid_at_iff _ n i j).mpr ⟨h9, ?_⟩
  intro p q hpq
  by_cases hc : p = row ∧ q = col
  · rcases hc with ⟨h1, h2⟩; subst h1; subst h2
    rw [setCell_same]
    omega
  · rw [setCell_of_ne _ _ hc]
    exact hp p q hpq

/-- Writing to `(row, col)` does not change validity at a cell whose
peers do not include `(row, col)`. -/
theorem is_valid_at_setCell_not_unit (g : Grid) (row col i j : Fin 9) (v n : Nat)
    (h : ¬ inUnit i j row col) :
    is_valid_at (setCell g row col v) n i j = is_valid_at g n i j := by
  apply is_valid_at_congr
  intro p q hpq
  apply setCell_of_ne
  intro hc
  rcases hc with ⟨h1, h2⟩; subst h1; subst h2
  exact h ((isPeer_symm hpq).2)

/-- `remove_at` preserves the two hint invariants. -/
theorem remove_at_inv (s : Sudoku) (row col : Fin 9)
    (hE : emptyExact s) (hS : hintSound s) :
    emptyExact (remove_at s row col).2 ∧ hintSound (remove_at s row col).2 := by
  by_cases h0 : s.grid row col = 0
  · rw [remove_at_of_empty s row col h0]
    exact ⟨hE, hS⟩
  · set g' := setCell s.grid row col 0 with hg'
    have hgrid : (remove_at s row col).2.grid = g' := remove_at_grid s row col
    have hhints := remove_at_hints_of_ne s row col h0
    -- digits other than the removed entry keep their validity
    have f2 : ∀ (m : Nat) (i j : Fin 9), m ≠ s.grid row col → m ≠ 0 →
        is_valid_at g' m i j = is_valid_at s.grid m i j := by
      intro m i j hm hm0
      exact is_valid_at_setCell_of_ne s.grid row col i j 0 m (Ne.symm hm0) (Ne.symm hm)
    have f3 : ∀ (m : Nat) (i j : Fin 9), ¬ inUnit i j row col →
        is_valid_at g' m i j = is_valid_at s.grid m i j := by
      intro m i j hu
      exact is_valid_at_setCell_not_unit s.grid row col i j 0 m hu
    constructor
    · -- emptyExact
      intro i j hij0 k
      rw [hgrid] at hij0
      rw [hgrid]
      simp only [hhints]
      by_cases hc : i = row ∧ j = col
      · rcases hc with ⟨h1, h2⟩; subst h1; subst h2
        -- the removed cell itself: the final recomputation loop makes its
        -- hints exactly the valid digits
        have hd3 : (decide (i = i ∧ j = j) &&
            is_valid_at g' (k.val + 1) i j) = is_valid_at g' (k.val + 1) i j := by
          simp
        rcases Bool.eq_false_or_eq_true (is_valid_at g' (k.val + 1) i j) with hv | hv
        · rw [hd3, hv, Bool.or_true]
        · have hfirst : s.hints i j k = false := by
            rcases Bool.eq_false_or_eq_true (s.hints i j k) with hb | hb
            · exfalso
              have hmono := is_valid_at_clear_mono s.grid i j (k.val + 1)
                (by omega) i j (hS i j k hb)
              rw [← hg', hv] at hmono
              exact Bool.noConfusion hmono
            · exact hb
          have hmid : (decide (k.val + 1 = s.grid i j ∧ inUnit i j i j) &&
              is_valid_at g' (s.grid i j) i j) = false := by
            by_cases hk : k.val + 1 = s.grid i j
            · have hvv : is_valid_at g' (s.grid i j) i j = false := by
                rw [← hk]; exact hv
              rw [hvv, Bool.and_false]
            · have hd : decide (k.val + 1 = s.grid i j ∧ inUnit i j i j) = false :=
                decide_eq_false (fun hcc => hk hcc.1)
              rw [hd, Bool.false_and]
          rw [hfirst, hmid, hd3, hv]
          rfl
      · have hsg : s.grid i j = 0 := by
          have hsc := @setCell_of_ne i j _ _ s.grid 0 hc
          rw [← hg'] at hsc
          rw [← hsc]
          exact hij0
        have hfirst : s.hints i j k = is_valid_at s.grid (k.val + 1) i j :=
          hE i j hsg k
        have hthird : decide (i = row ∧ j = col) = false := decide_eq_false hc
        rw [hfirst, hthird, Bool.false_and, Bool.or_false]
        by_cases hk : k.val + 1 = s.grid row col
        · by_cases hu : inUnit i j row col
          · have hd : decide (k.val + 1 = s.grid row col ∧ inUnit i j row col)
                = true := decide_eq_true ⟨hk, hu⟩
            rw [hd, Bool.true_and, hk]
            rcases Bool.eq_false_or_eq_true
                (is_valid_at g' (s.grid row col) i j) with hv | hv
            · rw [hv, Bool.or_true]
            · rw [hv, Bool.or_false]
              rcases Bool.eq_false_or_eq_true
                  (is_valid_at s.grid (s.grid row col) i j) with hw | hw
              · exfalso
                have hmono := is_valid_at_clear_mono s.grid row col
                  (s.grid row col) h0 i j hw
                rw [← hg', hv] at hmono
                exact Bool.noConfusion hmono
              · exact hw
          · have hd : decide (k.val + 1 = s.grid row col ∧ inUnit i j row col)
                = false := decide_eq_false (fun hcc => hu hcc.2)
            rw [hd, Bool.false_and, Bool.or_false]
            exact (f3 (k.val + 1) i j hu).symm
        · have hd : decide (k.val + 1 = s.grid row col ∧ inUnit i j row col)
              = false := decide_eq_false (fun hcc => hk hcc.1)
          rw [hd, Bool.false_and, Bool.or_false]
          exact (f2 (k.val + 1) i j hk (by omega)).symm
    · -- hintSound
      intro i j k hbit
      rw [hgrid]
      simp only [hhints, Bool.or_eq_true, Bool.and_eq_true,
        decide_eq_true_eq] at hbit
      rcases hbit with (hb1 | ⟨⟨hk, -⟩, hv⟩) | ⟨⟨h1, h2⟩, hv⟩
      · exact is_valid_at_clear_mono s.grid row col (k.val + 1) (by omega) i j
          (hS i j k hb1)
      · rw [hk]
        exact hv
      · subst h1; subst h2
        exact hv

/-- `put_at` preserves the two hint invariants (for a digit 1–9, the
asserted precondition of the source). -/
theorem put_at_inv (s : Sudoku) (n : Nat) (row col : Fin 9)
    (hn1 : 1 ≤ n) (hn9 : n ≤ 9) (hE : emptyExact s) (hS : hintSound s) :
    emptyExact (put_at s n row col) ∧ hintSound (put_at s n row col) := by
  obtain ⟨hE0, hS0⟩ := remove_at_inv s row col hE hS
  set s0 := (remove_at s row col).2 with hs0
  have h00 : s0.grid row col = 0 := by
    rw [hs0, remove_at_grid]
    exact setCell_same s.grid row col 0
  have hgrid : (put_at s n row col).grid = setCell s0.grid row col n := rfl
  have hhints : (put_at s n row col).hints = fun i j k =>
      if i = row ∧ j = col then false
      else if k.val + 1 = n ∧ inUnit i j row col then false
      else s0.hints i j k := rfl
  have p1 : ∀ (m : Nat) (i j : Fin 9), ¬(m = n) → m ≠ 0 →
      is_valid_at (setCell s0.grid row col n) m i j = is_valid_at s0.grid m i j := by
    intro m i j hm hm0
    refine is_valid_at_setCell_of_ne s0.grid row col i j n m (fun hc => hm hc.symm) ?_
    rw [h00]
    exact fun hc => hm0 hc.symm
  have p2 : ∀ (m : Nat) (i j : Fin 9), ¬ inUnit i j row col →
      is_valid_at (setCell s0.grid row col n) m i j = is_valid_at s0.grid m i j := by
    intro m i j hu
    exact is_valid_at_setCell_not_unit s0.grid row col i j n m hu
  constructor
  · -- emptyExact
    intro i j hij0 k
    rw [hgrid] at hij0 ⊢
    have hc : ¬(i = row ∧ j = col) := by
      intro hc
      rcases hc with ⟨h1, h2⟩; subst h1; subst h2
      rw [setCell_same] at hij0
      omega
    have hs0ij : s0.grid i j = 0 := by
      rw [← setCell_of_ne s0.grid n hc]
      exact hij0
    simp only [hhints]
    rw [if_neg hc]
    by_cases hd : k.val + 1 = n ∧ inUnit i j row col
    · rw [if_pos hd]
      rcases Bool.eq_false_or_eq_true
          (is_valid_at (setCell s0.grid row col n) (k.val + 1) i j) with hv | hv
      · exfalso
        rcases (is_valid_at_iff _ _ i j).mp hv with ⟨-, hp⟩
        have hpeer : isPeer row col i j := isPeer_symm ⟨pair_ne_iff.mpr hc, hd.2⟩
        refine hp row col hpeer ?_
        rw [setCell_same]
        exact hd.1.symm
      · rw [hv]
    · rw [if_neg hd]
      by_cases hu : inUnit i j row col
      · have hk : ¬(k.val + 1 = n) := fun hkk => hd ⟨hkk, hu⟩
        rw [p1 (k.val + 1) i j hk (by omega)]
        exact hE0 i j hs0ij k
      · rw [p2 (k.val + 1) i j hu]
        exact hE0 i j hs0ij k
  · -- hintSound
    intro i j k hbit
    rw [hgrid]
    simp only [hhints] at hbit
    by_cases hc : i = row ∧ j = col
    · rw [if_pos hc] at hbit
      exact Bool.noConfusion hbit
    · rw [if_neg hc] at hbit
      by_cases hd : k.val + 1 = n ∧ inUnit i j row col
      · rw [if_pos hd] at hbit
        exact Bool.noConfusion hbit
      · rw [if_neg hd] at hbit
        have hv0 := hS0 i j k hbit
        by_cases hu : inUnit i j row col
        · have hk : ¬(k.val + 1 = n) := fun hkk => hd ⟨hkk, hu⟩
          rw [p1 (k.val + 1) i j hk (by omega)]
          exact hv0
        · rw [p2 (k.val + 1) i j hu]
          exact hv0

/-- Boards reachable through the board-constructing and mutating
operations of the module: `from_grid`, `put_at` (with its asserted digit
precondition) and `remove_at`. -/
inductive Reachable : Sudoku → Prop
  | construct (g : Grid) (s : Sudoku) : from_grid g = Except.ok s → Reachable s
  | place (s : Sudoku) (n : Nat) (row col : Fin 9) :
      Reachable s → 1 ≤ n → n ≤ 9 → Reachable (put_at s n row col)
  | erase (s : Sudoku) (row col : Fin 9) :
      Reachable s → Reachable (remove_at s row col).2

theorem reachable_inv {s : Sudoku} (h : Reachable s) :
    emptyExact s ∧ hintSound s := by
  induction h with
  | construct g s hok => exact from_grid_inv hok
  | place s n row col hr hn1 hn9 ih => exact put_at_inv s n row col hn1 hn9 ih.1 ih.2
  | erase s row col hr ih => exact remove_at_inv s row col ih.1 ih.2

/-- The successful result of `from_grid` in explicit record form. -/
def mkBoard (g : Grid) : Sudoku :=
  { grid := g
    hints := fun i j k => if g i j ≠ 0 then false else is_valid_at g (k.val + 1) i j }

theorem from_grid_eq_ok (g : Grid)
    (h : ∀ i j : Fin 9, g i j ≠ 0 → is_valid_at g (g i j) i j = true) :
    from_grid g = Except.ok (mkBoard g) := by
  unfold from_grid mkBoard
  rw [if_pos h]

/-- A grid whose only givens are `1` at `(0,0)` and `2` at `(0,1)`. -/
def pairGrid : Grid := fun i j =>
  if i = 0 ∧ j = 0 then 1 else if i = 0 ∧ j = 1 then 2 else 0

/-- A grid whose only given is `2` at `(0,1)`. -/
def soloGrid : Grid := fun i j => if i = 0 ∧ j = 1 then 2 else 0

/-- The board obtained by constructing from `pairGrid` and removing the
given at `(0,0)`. -/
def pollBoard : Sudoku := (remove_at (mkBoard pairGrid) 0 0).2

/-- C1 (counterexample): the claimed invariant "each occupied cell has an
empty candidate set" fails on a reachable board.  Constructing from a grid
whose only givens are `1` at `(0,0)` and `2` at `(0,1)` and then removing
the `1` leaves `(0,1)` occupied while `remove_at` restores candidate `1`
into its hint set (the box/row/column loops of `remove_at` do not test
whether the touched peer is empty). -/
theorem hint_invariant_pollution_cex :
    Reachable pollBoard ∧ pollBoard.grid 0 1 ≠ 0 ∧ pollBoard.hints 0 1 0 = true := by
  refine ⟨?_, by decide, by decide⟩
  exact Reachable.erase (mkBoard pairGrid) 0 0
    (Reachable.construct pairGrid (mkBoard pairGrid)
      (from_grid_eq_ok pairGrid (by decide)))

/-- C1 (amended): for every board reachable by construct/place/remove
from a validly constructed board, each empty cell's candidate set is
exactly the set of digits 1–9 not currently held by any of its row,
column or block peers, and every stored candidate — also at occupied
cells, whose candidate sets need not be empty — is a digit no peer
currently holds; both properties are preserved by every mutating
operation (captured by induction over `Reachable`). -/
theorem hint_invariant_of_reachable (s : Sudoku) (h : Reachable s) :
    (∀ r c : Fin 9, s.grid r c = 0 → ∀ k : Fin 9,
      (s.hints r c k = true ↔ ∀ i j : Fin 9, isPeer i j r c → s.grid i j ≠ k.val + 1)) ∧
    (∀ r c k : Fin 9, s.hints r c k = true →
      ∀ i j : Fin 9, isPeer i j r c → s.grid i j ≠ k.val + 1) := by
  obtain ⟨hE, hS⟩ := reachable_inv h
  constructor
  · intro r c hrc k
    rw [hE r c hrc k]
    constructor
    · intro hv
      exact ((is_valid_at_iff s.grid (k.val + 1) r c).mp hv).2
    · intro hp
      exact (is_valid_at_iff s.grid (k.val + 1) r c).mpr ⟨by omega, hp⟩
  · intro r c k hbit
    exact ((is_valid_at_iff s.grid (k.val + 1) r c).mp (hS r c k hbit)).2

theorem hint_invariant_of_reachable_witness :
    Reachable (mkBoard soloGrid) ∧ (mkBoard soloGrid).hints 0 0 0 = true := by
  have hreach : Reachable (mkBoard soloGrid) :=
    Reachable.construct soloGrid (mkBoard soloGrid)
      (from_grid_eq_ok soloGrid (by decide))
  refine ⟨hreach, ?_⟩
  exact ((hint_invariant_of_reachable (mkBoard soloGrid) hreach).1 0 0
    (by decide) 0).mpr (by decide)

/-- C2 (counterexample): placing `1` at the empty cell `(0,0)` of the
board constructed from `soloGrid` and then removing it does not restore
the original state: the occupied peer `(0,1)` gains the candidate `1`. -/
theorem place_then_remove_cex :
    (remove_at (put_at (mkBoard soloGrid) 1 0 0) 0 0).2 ≠ mkBoard soloGrid := by
  intro hcontra
  have h1 : (remove_at (put_at (mkBoard soloGrid) 1 0 0) 0 0).2.hints 0 1 0 = true := by
    decide
  have h2 : (mkBoard soloGrid).hints 0 1 0 = false := by decide
  rw [hcontra] at h1
  rw [h1] at h2
  exact Bool.noConfusion h2

/-- C2 (amended): on a board satisfying the empty-cell exactness
invariant, `put_at n row col` on an empty cell followed by
`remove_at row col` restores the grid exactly and restores the candidate
set of every cell that was empty (in particular the target cell); only
the candidate sets of occupied cells can differ (they may gain the placed
digit, as the counterexample shows). -/
theorem place_then_remove_restores_empty_cells (s : Sudoku) (n : Nat)
    (row col : Fin 9) (hE : emptyExact s) (hn1 : 1 ≤ n) (hn9 : n ≤ 9)
    (h0 : s.grid row col = 0) :
    (remove_at (put_at s n row col) row col).2.grid = s.grid ∧
    ∀ i j : Fin 9, s.grid i j = 0 →
      ∀ k : Fin 9, (remove_at (put_at s n row col) row col).2.hints i j k
        = s.hints i j k := by
  have hsnd : (remove_at s row col).2 = s := by
    rw [remove_at_of_empty s row col h0]
  have ht0 : (put_at s n row col).grid row col = n := by
    rw [put_at_grid]
    exact setCell_same s.grid row col n
  have hgg : setCell (put_at s n row col).grid row col 0 = s.grid := by
    rw [put_at_grid, setCell_setCell]
    exact setCell_self s.grid row col 0 h0
  have hth : (put_at s n row col).hints = fun i j k =>
      if i = row ∧ j = col then false
      else if k.val + 1 = n ∧ inUnit i j row col then false
      else s.hints i j k := by
    rw [put_at_hints, hsnd]
  have hu := remove_at_hints_of_ne (put_at s n row col) row col (by rw [ht0]; omega)
  rw [ht0, hgg] at hu
  constructor
  · rw [remove_at_grid]
    exact hgg
  · intro i j hij0 k
    simp only [hu, hth]
    by_cases hc : i = row ∧ j = col
    · rcases hc with ⟨h1, h2⟩; subst h1; subst h2
      rw [if_pos ⟨rfl, rfl⟩, hE i j hij0 k]
      have hd3 : decide (i = i ∧ j = j) = true := by simp
      rw [hd3, Bool.true_and, Bool.false_or]
      by_cases hk : k.val + 1 = n
      · have hd : decide (k.val + 1 = n ∧ inUnit i j i j) = true :=
          decide_eq_true ⟨hk, Or.inr (Or.inl rfl)⟩
        rw [hd, Bool.true_and, ← hk]
        exact Bool.or_self _
      · have hd : decide (k.val + 1 = n ∧ inUnit i j i j) = false :=
          decide_eq_false (fun hcc => hk hcc.1)
        rw [hd, Bool.false_and, Bool.false_or]
    · have hd3 : decide (i = row ∧ j = col) = false := decide_eq_false hc
      rw [if_neg hc, hd3, Bool.false_and, Bool.or_false]
      by_cases hd : k.val + 1 = n ∧ inUnit i j row col
      · have hdd : decide (k.val + 1 = n ∧ inUnit i j row col) = true :=
          decide_eq_true hd
        rw [if_pos hd, hdd, Bool.true_and, Bool.false_or, hE i j hij0 k, hd.1]
      · have hdd : decide (k.val + 1 = n ∧ inUnit i j row col) = false :=
          decide_eq_false hd
        rw [if_neg hd, hdd, Bool.false_and, Bool.or_false]

theorem place_then_remove_restores_empty_cells_witness :
    emptyExact (mkBoard soloGrid) ∧ (mkBoard soloGrid).grid 0 0 = 0 ∧
    (remove_at (put_at (mkBoard soloGrid) 1 0 0) 0 0).2.grid = (mkBoard soloGrid).grid := by
  have hE : emptyExact (mkBoard soloGrid) :=
    (from_grid_inv (from_grid_eq_ok soloGrid (by decide))).1
  exact ⟨hE, by decide,
    (place_then_remove_restores_empty_cells (mkBoard soloGrid) 1 0 0 hE
      (by decide) (by decide) (by decide)).1⟩

/-- C9: removing from an already-empty cell returns `0` and leaves the
whole state — grid and all 81 hint sets — unchanged. -/
theorem remove_at_already_empty (s : Sudoku) (row col : Fin 9)
    (h : s.grid row col = 0) :
    remove_at s row col = (0, s) :=
  remove_at_of_empty s row col h

theorem remove_at_already_empty_witness :
    (mkBoard soloGrid).grid 3 3 = 0 ∧
    remove_at (mkBoard soloGrid) 3 3 = (0, mkBoard soloGrid) :=
  ⟨by decide, remove_at_already_empty (mkBoard soloGrid) 3 3 (by decide)⟩

/-- A grid whose only nonzero entry is the out-of-range byte `10`. -/
def bigGrid : Grid := fun i j => if i = 0 ∧ j = 0 then 10 else 0

/-- C10: a 9×9 grid of bytes with an entry greater than 9 in a nonzero
position makes `from_grid` return the `InvalidSudoku` error (rather than
succeeding), because `is_valid_at` is `false` for every digit greater
than 9. -/
theorem from_grid_entry_gt_nine (g : Grid) (r c : Fin 9) (h : 9 < g r c) :
    from_grid g = Except.error SudokuError.invalidSudoku ∧
    ∀ n : Nat, 9 < n → is_valid_at g n r c = false := by
  constructor
  · unfold from_grid
    rw [if_neg]
    intro hall
    have h1 := hall r c (by omega)
    unfold is_valid_at at h1
    rw [if_pos h] at h1
    exact Bool.noConfusion h1
  · intro n hn
    unfold is_valid_at
    rw [if_pos hn]

theorem from_grid_entry_gt_nine_witness :
    9 < bigGrid 0 0 ∧
    from_grid bigGrid = Except.error SudokuError.invalidSudoku ∧
    is_valid_at bigGrid 10 0 0 = false :=
  ⟨by decide, (from_grid_entry_gt_nine bigGrid 0 0 (by decide)).1,
    (from_grid_entry_gt_nine bigGrid 0 0 (by decide)).2 10 (by decide)⟩

/-- C5: for a 9×9 grid of cell values 0–9 (the declared input domain of
`construct`), `from_grid` fails with `InvalidSudoku` if and only if some
nonzero entry has a peer holding the same digit, and on success every
empty cell's candidate set is exactly the set of digits 1–9 held by no
row, column or block peer. -/
theorem from_grid_spec (g : Grid) (hle : ∀ i j : Fin 9, g i j ≤ 9) :
    (from_grid g = Except.error SudokuError.invalidSudoku ↔
      ∃ r c i j : Fin 9, g r c ≠ 0 ∧ isPeer i j r c ∧ g i j = g r c) ∧
    ∀ s : Sudoku, from_grid g = Except.ok s →
      ∀ r c : Fin 9, g r c = 0 → ∀ k : Fin 9,
        (s.hints r c k = true ↔ ∀ i j : Fin 9, isPeer i j r c → g i j ≠ k.val + 1) := by
  constructor
  · unfold from_grid
    split
    · next hall =>
      constructor
      · intro hcontra
        exact absurd hcontra (by simp)
      · rintro ⟨r, c, i, j, hnz, hpeer, heq⟩
        exfalso
        rcases (is_valid_at_iff g (g r c) r c).mp (hall r c hnz) with ⟨-, hp⟩
        exact hp i j hpeer heq
    · next hall =>
      constructor
      · intro _
        push_neg at hall
        rcases hall with ⟨r, c, hnz, hnv⟩
        have hnv' : ¬(g r c ≤ 9 ∧ ∀ i j : Fin 9, isPeer i j r c → g i j ≠ g r c) :=
          fun hc => hnv ((is_valid_at_iff g (g r c) r c).mpr hc)
        push_neg at hnv'
        rcases hnv' (hle r c) with ⟨i, j, hpeer, heq⟩
        exact ⟨r, c, i, j, hnz, hpeer, heq⟩
      · intro _
        rfl
  · intro s hok r c hrc k
    rcases from_grid_ok hok with ⟨-, hhints⟩
    have hs : s.hints r c k = is_valid_at g (k.val + 1) r c := by
      simp only [hhints]
      rw [if_neg (fun hcc => hcc hrc)]
    rw [hs, is_valid_at_iff]
    constructor
    · rintro ⟨-, hp⟩
      exact hp
    · intro hp
      exact ⟨by omega, hp⟩

/-- A grid with `9` at `(0,0)` and `(0,1)` and zeroes elsewhere. -/
def twoNinesGrid : Grid := fun i j => if i = 0 ∧ (j = 0 ∨ j = 1) then 9 else 0

theorem from_grid_spec_witness :
    (∀ i j : Fin 9, twoNinesGrid i j ≤ 9) ∧
    from_grid twoNinesGrid = Except.error SudokuError.invalidSudoku :=
  ⟨by decide, (from_grid_spec twoNinesGrid (by decide)).1.mpr
    ⟨0, 0, 0, 1, by decide, by decide, by decide⟩⟩

theorem minStep_pos {s : Sudoku} {acc : Nat × Fin 9 × Fin 9} {p : Fin 9 × Fin 9}
    (h : s.grid p.1 p.2 = 0 ∧ hintCount (s.hints p.1 p.2) < acc.1) :
    minStep s acc p = (hintCount (s.hints p.1 p.2), p.1, p.2) := by
  unfold minStep
  dsimp only
  rw [if_pos h]

theorem minStep_neg {s : Sudoku} {acc : Nat × Fin 9 × Fin 9} {p : Fin 9 × Fin 9}
    (h : ¬(s.grid p.1 p.2 = 0 ∧ hintCount (s.hints p.1 p.2) < acc.1)) :
    minStep s acc p = acc := by
  unfold minStep
  dsimp only
  rw [if_neg h]

/-- Behaviour of the `find_min_poss` scanning loop over an arbitrary cell
list: either no cell improves on the accumulator, or the result is the
first cell attaining the final (strictly smallest seen) count. -/
theorem foldl_minStep_spec (s : Sudoku) (l : List (Fin 9 × Fin 9)) :
    ∀ acc r : Nat × Fin 9 × Fin 9, l.foldl (minStep s) acc = r →
      (r = acc ∧
        ∀ p ∈ l, ¬(s.grid p.1 p.2 = 0 ∧ hintCount (s.hints p.1 p.2) < acc.1)) ∨
      (∃ l1 l2 : List (Fin 9 × Fin 9),
        l = l1 ++ r.2 :: l2 ∧
        s.grid r.2.1 r.2.2 = 0 ∧
        r.1 = hintCount (s.hints r.2.1 r.2.2) ∧
        r.1 < acc.1 ∧
        (∀ p ∈ l1, s.grid p.1 p.2 = 0 → r.1 < hintCount (s.hints p.1 p.2)) ∧
        (∀ p ∈ l2, s.grid p.1 p.2 = 0 → r.1 ≤ hintCount (s.hints p.1 p.2))) := by
  induction l with
  | nil =>
    intro acc r h
    exact Or.inl ⟨h.symm, by simp⟩
  | cons x t ih =>
    intro acc r h
    rw [List.foldl_cons] at h
    by_cases hc : s.grid x.1 x.2 = 0 ∧ hintCount (s.hints x.1 x.2) < acc.1
    · rw [minStep_pos hc] at h
      rcases ih (hintCount (s.hints x.1 x.2), x.1, x.2) r h with
        ⟨hr, hall⟩ | ⟨l1, l2, heq, hem, hcnt, hlt, hstrict, hweak⟩
      · right
        subst hr
        refine ⟨[], t, by simp, hc.1, rfl, hc.2, by simp, ?_⟩
        intro p hp hpe
        have h2 : ¬(hintCount (s.hints p.1 p.2) < hintCount (s.hints x.1 x.2)) :=
          fun hl => hall p hp ⟨hpe, hl⟩
        show hintCount (s.hints x.1 x.2) ≤ hintCount (s.hints p.1 p.2)
        omega
      · right
        refine ⟨x :: l1, l2, by rw [List.cons_append, ← heq], hem, hcnt,
          lt_trans hlt hc.2, ?_, hweak⟩
        intro p hp hpe
        rcases List.mem_cons.mp hp with rfl | hp'
        · exact hlt
        · exact hstrict p hp' hpe
    · rw [minStep_neg hc] at h
      rcases ih acc r h with
        ⟨hr, hall⟩ | ⟨l1, l2, heq, hem, hcnt, hlt, hstrict, hweak⟩
      · left
        refine ⟨hr, ?_⟩
        intro p hp
        rcases List.mem_cons.mp hp with rfl | hp'
        · exact hc
        · exact hall p hp'
      · right
        refine ⟨x :: l1, l2, by rw [List.cons_append, ← heq], hem, hcnt, hlt, ?_, hweak⟩
        intro p hp hpe
        rcases List.mem_cons.mp hp with rfl | hp'
        · have h2 : ¬(hintCount (s.hints p.1 p.2) < acc.1) :=
            fun hl => hc ⟨hpe, hl⟩
          omega
        · exact hstrict p hp' hpe

/-- C6: `find_min_poss` returns `none` exactly when no cell is empty;
otherwise it returns an empty cell whose stored candidate count is
minimal among all empty cells, and every empty cell strictly earlier in
row-major order has a strictly larger count (so it is the first empty
cell attaining the minimum). -/
theorem find_min_poss_spec (s : Sudoku) :
    (find_min_poss s = none ↔ ∀ r c : Fin 9, s.grid r c ≠ 0) ∧
    ∀ r c : Fin 9, find_min_poss s = some (r, c) →
      s.grid r c = 0 ∧
      (∀ p q : Fin 9, s.grid p q = 0 →
        hintCount (s.hints r c) ≤ hintCount (s.hints p q)) ∧
      (∀ p q : Fin 9, s.grid p q = 0 →
        p.val * 9 + q.val < r.val * 9 + c.val →
        hintCount (s.hints r c) < hintCount (s.hints p q)) := by
  have hle9 : ∀ h : Fin 9 → Bool, hintCount h ≤ 9 := by decide
  have hmem : ∀ p : Fin 9 × Fin 9, p ∈ allCells := by decide
  have hnodup : allCells.Nodup := by decide
  have hget : ∀ p : Fin 9 × Fin 9, allCells[p.1.val * 9 + p.2.val]? = some p := by decide
  have hlenAll : allCells.length = 81 := by decide
  have hfind : find_min_poss s =
      (if (allCells.foldl (minStep s) (10, 0, 0)).1 = 10 then none
       else some (allCells.foldl (minStep s) (10, 0, 0)).2) := rfl
  rcases hspec : allCells.foldl (minStep s) (10, 0, 0) with ⟨m, w⟩
  rcases foldl_minStep_spec s allCells (10, 0, 0) (m, w) hspec with
    ⟨hr, hall⟩ | ⟨l1, l2, heq, hem, hcnt, hlt, hstrict, hweak⟩
  · -- no empty cell improved on the sentinel 10: there is no empty cell
    have hm10 : m = 10 := congrArg Prod.fst hr
    have hnoempty : ∀ r c : Fin 9, s.grid r c ≠ 0 := by
      intro r c hrc
      have h9 : hintCount (s.hints r c) < 10 := by
        have := hle9 (s.hints r c)
        omega
      exact hall (r, c) (hmem (r, c)) ⟨hrc, h9⟩
    constructor
    · rw [hfind, hspec]
      dsimp only
      rw [if_pos hm10]
      exact ⟨fun _ => hnoempty, fun _ => rfl⟩
    · intro r c hsome
      rw [hfind, hspec] at hsome
      dsimp only at hsome
      rw [if_pos hm10] at hsome
      exact Option.noConfusion hsome
  · -- a minimum was found
    dsimp only at hem hcnt hlt hstrict hweak
    have hm : m ≤ 9 := by rw [hcnt]; exact hle9 _
    have hfs : find_min_poss s = some w := by
      rw [hfind, hspec]
      dsimp only
      rw [if_neg (by omega)]
    constructor
    · rw [hfs]
      constructor
      · intro hcontra; exact Option.noConfusion hcontra
      · intro hnoempty
        exact absurd hem (hnoempty w.1 w.2)
    · intro r c hsome
      rw [hfs] at hsome
      have hw : w = (r, c) := Option.some.inj hsome
      subst hw
      have hem' : s.grid r c = 0 := hem
      have hcnt' : m = hintCount (s.hints r c) := hcnt
      refine ⟨hem', ?_, ?_⟩
      · -- minimality over all empty cells
        intro p q hpq
        have hmemp : (p, q) ∈ l1 ++ (r, c) :: l2 := by rw [← heq]; exact hmem (p, q)
        rcases List.mem_append.mp hmemp with hp1 | hp2
        · have h3 : m < hintCount (s.hints p q) := hstrict (p, q) hp1 hpq
          omega
        · rcases List.mem_cons.mp hp2 with hpe | hp2'
          · have h1 : p = r := congrArg Prod.fst hpe
            have h2 : q = c := congrArg Prod.snd hpe
            subst h1; subst h2
            exact le_refl _
          · have h3 : m ≤ hintCount (s.hints p q) := hweak (p, q) hp2' hpq
            omega
      · -- strictness for row-major-earlier empty cells
        intro p q hpq hbefore
        have hgrc : allCells[r.val * 9 + c.val]? = some (r, c) := hget (r, c)
        have hgpq : allCells[p.val * 9 + q.val]? = some (p, q) := hget (p, q)
        have hidx : r.val * 9 + c.val = l1.length := by
          refine @List.getElem?_inj _ _ _ allCells ?_ hnodup ?_
          · rw [hlenAll]
            omega
          · rw [hgrc, heq, List.getElem?_append_right (le_refl _)]
            simp
        have hp1 : (p, q) ∈ l1 := by
          rw [heq, List.getElem?_append_left (by omega)] at hgpq
          exact List.mem_iff_getElem?.mpr ⟨p.val * 9 + q.val, hgpq⟩
        have h3 : m < hintCount (s.hints p q) := hstrict (p, q) hp1 hpq
        omega

theorem find_min_poss_spec_witness :
    find_min_poss (mkBoard soloGrid) = some (0, 0) ∧
    (mkBoard soloGrid).grid 0 0 = 0 :=
  ⟨by decide, ((find_min_poss_spec (mkBoard soloGrid)).2 0 0 (by decide)).1⟩

theorem lowest_cases :
    ∀ h : Fin 9 → Bool,
      lowest h = none ∨ ∃ k : Fin 9, lowest h = some (k.val + 1) ∧ h k = true := by
  decide

theorem lowest_none_all_false :
    ∀ h : Fin 9 → Bool, lowest h = none → ∀ k, h k = false := by
  decide

/-- If `find_min_poss` returns a position, that cell is empty. -/
theorem find_min_some_empty {s : Sudoku} {rc : Fin 9 × Fin 9}
    (h : find_min_poss s = some rc) : s.grid rc.1 rc.2 = 0 := by
  rcases hspec : allCells.foldl (minStep s) (10, 0, 0) with ⟨m, w⟩
  have hfind : find_min_poss s = (if m = 10 then none else some w) := by
    show (if (allCells.foldl (minStep s) (10, 0, 0)).1 = 10 then none
      else some (allCells.foldl (minStep s) (10, 0, 0)).2) = _
    rw [hspec]
  rcases foldl_minStep_spec s allCells (10, 0, 0) (m, w) hspec with
    ⟨hr, -⟩ | ⟨l1, l2, -, hem, -, -, -, -⟩
  · have hm10 : m = 10 := congrArg Prod.fst hr
    rw [hfind, if_pos hm10] at h
    exact Option.noConfusion h
  · by_cases hm10 : m = 10
    · rw [hfind, if_pos hm10] at h
      exact Option.noConfusion h
    · rw [hfind, if_neg hm10] at h
      have hw : w = rc := Option.some.inj h
      subst hw
      exact hem

/-- If `find_min_poss` returns `none`, the grid has no empty cell. -/
theorem find_min_none_full {s : Sudoku} (h : find_min_poss s = none) :
    ∀ r c : Fin 9, s.grid r c ≠ 0 := by
  have hle9 : ∀ h : Fin 9 → Bool, hintCount h ≤ 9 := by decide
  have hmem : ∀ p : Fin 9 × Fin 9, p ∈ allCells := by decide
  rcases hspec : allCells.foldl (minStep s) (10, 0, 0) with ⟨m, w⟩
  have hfind : find_min_poss s = (if m = 10 then none else some w) := by
    show (if (allCells.foldl (minStep s) (10, 0, 0)).1 = 10 then none
      else some (allCells.foldl (minStep s) (10, 0, 0)).2) = _
    rw [hspec]
  rcases foldl_minStep_spec s allCells (10, 0, 0) (m, w) hspec with
    ⟨-, hall⟩ | ⟨l1, l2, -, -, hcnt, -, -, -⟩
  · intro r c hrc
    have h9 : hintCount (s.hints r c) < 10 := by
      have := hle9 (s.hints r c)
      omega
    exact hall (r, c) (hmem (r, c)) ⟨hrc, h9⟩
  · exfalso
    have hm : m ≤ 9 := by
      have hc : m = hintCount (s.hints w.1 w.2) := hcnt
      rw [hc]
      exact hle9 _
    rw [hfind, if_neg (by omega)] at h
    exact Option.noConfusion h

/-- The `s.hints[row][col][n] = false` update performed by the solver
before pushing the remainder branch. -/
def clearHint (s : Sudoku) (row col : Fin 9) (n : Nat) : Sudoku :=
  { s with hints := fun i j k =>
      if i = row ∧ j = col ∧ k.val + 1 = n then false else s.hints i j k }

/-- Total number of set hint bits of a board (the termination measure of
the solver loop; not part of the source). -/
def hintBits (s : Sudoku) : Nat :=
  ∑ p : Fin 9 × Fin 9 × Fin 9, if s.hints p.1 p.2.1 p.2.2 = true then 1 else 0

theorem hintBits_le {s t : Sudoku}
    (h : ∀ i j k : Fin 9, t.hints i j k = true → s.hints i j k = true) :
    hintBits t ≤ hintBits s := by
  apply Finset.sum_le_sum
  intro p _
  cases htb : t.hints p.1 p.2.1 p.2.2 with
  | false => simp
  | true => simp [htb, h _ _ _ htb]

theorem hintBits_lt {s t : Sudoku}
    (h : ∀ i j k : Fin 9, t.hints i j k = true → s.hints i j k = true)
    (r c k0 : Fin 9) (hs : s.hints r c k0 = true) (ht : t.hints r c k0 = false) :
    hintBits t < hintBits s := by
  apply Finset.sum_lt_sum
  · intro p _
    cases htb : t.hints p.1 p.2.1 p.2.2 with
    | false => simp
    | true => simp [htb, h _ _ _ htb]
  · refine ⟨(r, c, k0), Finset.mem_univ _, ?_⟩
    show (if t.hints r c k0 = true then 1 else 0) < (if s.hints r c k0 = true then 1 else 0)
    rw [hs, ht]
    simp

theorem hintBits_pos {s : Sudoku} {r c k0 : Fin 9} (hs : s.hints r c k0 = true) :
    1 ≤ hintBits s := by
  have h1 : (if s.hints r c k0 = true then 1 else 0) ≤ hintBits s :=
    @Finset.single_le_sum _ _ _ (fun p : Fin 9 × Fin 9 × Fin 9 =>
      if s.hints p.1 p.2.1 p.2.2 = true then 1 else 0) _
      (fun _ _ => Nat.zero_le _) _ (Finset.mem_univ (r, c, k0))
  rw [hs] at h1
  simpa using h1

/-- Sum of `3 ^ hintBits` over a solver stack. -/
def stackMeasure (l : List Sudoku) : Nat := (l.map fun s => 3 ^ hintBits s).sum

theorem stackMeasure_cons (x : Sudoku) (l : List Sudoku) :
    stackMeasure (x :: l) = 3 ^ hintBits x + stackMeasure l := by
  simp [stackMeasure]

theorem stackMeasure_tail_lt (x : Sudoku) (l : List Sudoku) :
    stackMeasure l < stackMeasure (x :: l) := by
  rw [stackMeasure_cons]
  have hp : 0 < 3 ^ hintBits x := pow_pos (by norm_num) _
  omega

theorem put_at_hints_le (s : Sudoku) (n : Nat) (row col : Fin 9)
    (h0 : s.grid row col = 0) :
    ∀ i j k : Fin 9, (put_at s n row col).hints i j k = true →
      s.hints i j k = true := by
  intro i j k hbit
  have hsnd : (remove_at s row col).2 = s := by
    rw [remove_at_of_empty s row col h0]
  simp only [put_at_hints, hsnd] at hbit
  by_cases hc : i = row ∧ j = col
  · rw [if_pos hc] at hbit
    exact Bool.noConfusion hbit
  · rw [if_neg hc] at hbit
    by_cases hd : k.val + 1 = n ∧ inUnit i j row col
    · rw [if_pos hd] at hbit
      exact Bool.noConfusion hbit
    · rw [if_neg hd] at hbit
      exact hbit

theorem put_at_hints_own (s : Sudoku) (n : Nat) (row col k : Fin 9) :
    (put_at s n row col).hints row col k = false := by
  rw [put_at_hints]
  exact if_pos ⟨rfl, rfl⟩

theorem clearHint_hints_le (s : Sudoku) (row col : Fin 9) (n : Nat) :
    ∀ i j k : Fin 9, (clearHint s row col n).hints i j k = true →
      s.hints i j k = true := by
  intro i j k hbit
  unfold clearHint at hbit
  dsimp only at hbit
  by_cases hc : i = row ∧ j = col ∧ k.val + 1 = n
  · rw [if_pos hc] at hbit
    exact Bool.noConfusion hbit
  · rw [if_neg hc] at hbit
    exact hbit

theorem clearHint_hits (s : Sudoku) (row col : Fin 9) (n : Nat) (k : Fin 9)
    (hk : k.val + 1 = n) : (clearHint s row col n).hints row col k = false := by
  unfold clearHint
  dsimp only
  exact if_pos ⟨rfl, rfl, hk⟩

theorem clearHint_miss (s : Sudoku) (row col : Fin 9) (n : Nat) (i j k : Fin 9)
    (h : ¬(i = row ∧ j = col ∧ k.val + 1 = n)) :
    (clearHint s row col n).hints i j k = s.hints i j k := by
  unfold clearHint
  dsimp only
  exact if_neg h

theorem clearHint_grid (s : Sudoku) (row col : Fin 9) (n : Nat) :
    (clearHint s row col n).grid = s.grid := rfl

/-- One solver expansion strictly shrinks the stack measure: both pushed
boards lose the chosen candidate bit, and `3^(B-1) + 3^(B-1) < 3^B`. -/
theorem solver_push_lt (s : Sudoku) (rest : List Sudoku) (row col : Fin 9) (n : Nat)
    (hfm : find_min_poss s = some (row, col))
    (hlow : lowest (s.hints row col) = some n) :
    stackMeasure (put_at s n row col :: clearHint s row col n :: rest)
      < stackMeasure (s :: rest) := by
  have h0 : s.grid row col = 0 := find_min_some_empty hfm
  rcases lowest_cases (s.hints row col) with hnone | ⟨k0, hsome, hbit⟩
  · rw [hlow] at hnone
    exact Option.noConfusion hnone
  · rw [hlow] at hsome
    have hkn : k0.val + 1 = n := Option.some.inj hsome.symm
    have hB1 : 1 ≤ hintBits s := hintBits_pos hbit
    have hput : hintBits (put_at s n row col) < hintBits s :=
      hintBits_lt (put_at_hints_le s n row col h0) row col k0 hbit
        (put_at_hints_own s n row col k0)
    have hclear : hintBits (clearHint s row col n) < hintBits s :=
      hintBits_lt (clearHint_hints_le s row col n) row col k0 hbit
        (clearHint_hits s row col n k0 hkn)
    rw [stackMeasure_cons, stackMeasure_cons, stackMeasure_cons]
    have e1 : 3 ^ hintBits (put_at s n row col) ≤ 3 ^ (hintBits s - 1) :=
      Nat.pow_le_pow_right (by norm_num) (by omega)
    have e2 : 3 ^ hintBits (clearHint s row col n) ≤ 3 ^ (hintBits s - 1) :=
      Nat.pow_le_pow_right (by norm_num) (by omega)
    have e3 : 3 ^ hintBits s = 3 * 3 ^ (hintBits s - 1) := by
      conv_lhs => rw [show hintBits s = (hintBits s - 1) + 1 by omega]
      rw [pow_succ]
      ring
    have e4 : 1 ≤ 3 ^ (hintBits s - 1) := Nat.one_le_pow _ _ (by norm_num)
    omega

/-- The yield sequence of the `Solutions` iterator started on a given
stack (head of the list = top of the Rust `Vec` stack), with an explicit
fuel bound on the number of loop iterations.  One recursive step is one
iteration of the `while let Some(mut s) = self.stack.pop()` loop of
`Iterator::next`; a yielded board is consed onto the yields of the
remaining stack.  `solver_push_lt` and `stackMeasure_tail_lt` show every
iteration strictly decreases `stackMeasure`, so fuel `stackMeasure l`
(used by `sols` below) is never exhausted: the fuel is only a device to
make the recursion structural, and `solsFuel_spec` is proved for every
sufficient fuel. -/
def solsFuel : Nat → List Sudoku → List Sudoku
  | _, [] => []
  | 0, _ :: _ => []
  | fuel + 1, s :: rest =>
    match find_min_poss s with
    | none => if is_solved s then s :: solsFuel fuel rest else solsFuel fuel rest
    | some (row, col) =>
      match lowest (s.hints row col) with
      | none => solsFuel fuel rest
      | some n => solsFuel fuel (put_at s n row col :: clearHint s row col n :: rest)

/-- All boards the `Solutions` iterator will ever yield from a stack. -/
def sols (l : List Sudoku) : List Sudoku := solsFuel (stackMeasure l) l

/-- `Sudoku::solutions`: the iterator is seeded with a single clone of the
board; `sols` lists everything it will yield. -/
def solutions (s : Sudoku) : List Sudoku := sols [s]

/-- `Sudoku::has_solution`: the first element of the iterator exists. -/
def has_solution (s : Sudoku) : Bool := !(solutions s).isEmpty

/-- `Sudoku::has_unique_solution`: `solutions().take(2).count() == 1`. -/
def has_unique_solution (s : Sudoku) : Bool := ((solutions s).take 2).length == 1

/-- A fully occupied, internally consistent grid. -/
def SolvedGrid (g : Grid) : Prop :=
  ∀ r c : Fin 9, g r c ≠ 0 ∧ is_valid_at g (g r c) r c = true

instance (g : Grid) : Decidable (SolvedGrid g) := by
  unfold SolvedGrid
  infer_instance

theorem is_solved_iff (s : Sudoku) : is_solved s = true ↔ SolvedGrid s.grid := by
  unfold is_solved SolvedGrid
  rw [decide_eq_true_eq]

/-- `g'` keeps every given of `g`. -/
def Extends (g g' : Grid) : Prop := ∀ r c : Fin 9, g r c ≠ 0 → g' r c = g r c

/-- A completion of a grid: a solved grid keeping all its givens. -/
def IsCompletion (g g' : Grid) : Prop := SolvedGrid g' ∧ Extends g g'

/-- The solved grids the solver can still reach from a stack entry: the
completions of its grid whose value at every empty cell is among that
cell's stored candidates. -/
def ReachSol (s : Sudoku) (g' : Grid) : Prop :=
  IsCompletion s.grid g' ∧
  ∀ r c : Fin 9, s.grid r c = 0 →
    ∃ k : Fin 9, k.val + 1 = g' r c ∧ s.hints r c k = true

/-- In a solved grid, peers hold distinct values. -/
theorem solved_peer_ne {g' : Grid} (hs : SolvedGrid g') {i j r c : Fin 9}
    (hp : isPeer i j r c) : g' i j ≠ g' r c := by
  intro heq
  rcases hs r c with ⟨-, hv⟩
  rcases (is_valid_at_iff g' (g' r c) r c).mp hv with ⟨-, hpe⟩
  exact hpe i j hp heq

/-- Terminal step: with no empty cell left, the only reachable solution is
the board itself, and only when it is solved. -/
theorem reachSol_terminal {s : Sudoku} (hfm : find_min_poss s = none) (g' : Grid) :
    ReachSol s g' ↔ (is_solved s = true ∧ g' = s.grid) := by
  have hfull := find_min_none_full hfm
  constructor
  · rintro ⟨⟨hsolv, hext⟩, -⟩
    have hgeq : g' = s.grid := by
      funext r c
      exact hext r c (hfull r c)
    refine ⟨(is_solved_iff s).mpr ?_, hgeq⟩
    rw [← hgeq]
    exact hsolv
  · rintro ⟨hsol, rfl⟩
    refine ⟨⟨(is_solved_iff s).mp hsol, fun r c _ => rfl⟩, ?_⟩
    intro r c hrc
    exact absurd hrc (hfull r c)

/-- Dead branch: an empty cell with empty candidate set admits no
reachable solution. -/
theorem reachSol_dead {s : Sudoku} {row col : Fin 9}
    (hfm : find_min_poss s = some (row, col))
    (hlow : lowest (s.hints row col) = none) (g' : Grid) :
    ¬ ReachSol s g' := by
  rintro ⟨-, hhint⟩
  have h0 : s.grid row col = 0 := find_min_some_empty hfm
  rcases hhint row col h0 with ⟨k, -, hbit⟩
  rw [lowest_none_all_false (s.hints row col) hlow k] at hbit
  exact Bool.noConfusion hbit

/-- Branch split, placed side: the solutions reachable after placing a
stored candidate `n` at the empty branching cell are exactly the
solutions reachable before that assign `n` to that cell. -/
theorem reachSol_put {s : Sudoku} {row col : Fin 9} {n : Nat}
    (h0 : s.grid row col = 0)
    (hbitex : ∃ k : Fin 9, k.val + 1 = n ∧ s.hints row col k = true)
    (g' : Grid) :
    ReachSol (put_at s n row col) g' ↔ (ReachSol s g' ∧ g' row col = n) := by
  obtain ⟨k0, hk0, hb0⟩ := hbitex
  have hn1 : 1 ≤ n := by omega
  have hsnd : (remove_at s row col).2 = s := by
    rw [remove_at_of_empty s row col h0]
  have hgput : (put_at s n row col).grid = setCell s.grid row col n :=
    put_at_grid s n row col
  constructor
  · rintro ⟨⟨hsolv, hext⟩, hhint⟩
    have hgrc : g' row col = n := by
      have h1 := hext row col (by rw [hgput, setCell_same]; omega)
      rw [hgput, setCell_same] at h1
      exact h1
    refine ⟨⟨⟨hsolv, ?_⟩, ?_⟩, hgrc⟩
    · intro r c hrc
      have hc : ¬(r = row ∧ c = col) := by
        rintro ⟨rfl, rfl⟩
        exact hrc h0
      have h1 := hext r c (by rw [hgput, setCell_of_ne _ _ hc]; exact hrc)
      rw [hgput, setCell_of_ne _ _ hc] at h1
      exact h1
    · intro r c hrc
      by_cases hc : r = row ∧ c = col
      · rcases hc with ⟨rfl, rfl⟩
        exact ⟨k0, by rw [hgrc]; exact hk0, hb0⟩
      · have hrc' : (put_at s n row col).grid r c = 0 := by
          rw [hgput, setCell_of_ne _ _ hc]
          exact hrc
        rcases hhint r c hrc' with ⟨k, hk, hbit⟩
        exact ⟨k, hk, put_at_hints_le s n row col h0 r c k hbit⟩
  · rintro ⟨⟨⟨hsolv, hext⟩, hhint⟩, hgrc⟩
    refine ⟨⟨hsolv, ?_⟩, ?_⟩
    · intro r c hrc
      by_cases hc : r = row ∧ c = col
      · rcases hc with ⟨rfl, rfl⟩
        rw [hgput, setCell_same]
        exact hgrc
      · rw [hgput, setCell_of_ne _ _ hc]
        rw [hgput, setCell_of_ne _ _ hc] at hrc
        exact hext r c hrc
    · intro r c hrc
      have hc : ¬(r = row ∧ c = col) := by
        rintro ⟨rfl, rfl⟩
        rw [hgput, setCell_same] at hrc
        omega
      rw [hgput, setCell_of_ne _ _ hc] at hrc
      rcases hhint r c hrc with ⟨k, hk, hbit⟩
      refine ⟨k, hk, ?_⟩
      have hcond : ¬(k.val + 1 = n ∧ inUnit r c row col) := by
        rintro ⟨hkn, hu⟩
        have hpeer : isPeer r c row col := ⟨pair_ne_iff.mpr hc, hu⟩
        refine solved_peer_ne hsolv hpeer ?_
        rw [hgrc, ← hk, hkn]
      simp only [put_at_hints, hsnd]
      rw [if_neg hc, if_neg hcond]
      exact hbit

/-- Branch split, remainder side: clearing candidate `n` at the branching
cell keeps exactly the reachable solutions not assigning `n` there. -/
theorem reachSol_clear {s : Sudoku} {row col : Fin 9} {n : Nat}
    (h0 : s.grid row col = 0) (g' : Grid) :
    ReachSol (clearHint s row col n) g' ↔ (ReachSol s g' ∧ g' row col ≠ n) := by
  have hgr : (clearHint s row col n).grid = s.grid := clearHint_grid s row col n
  constructor
  · rintro ⟨⟨hsolv, hext⟩, hhint⟩
    have hh0 : (clearHint s row col n).grid row col = 0 := by rw [hgr]; exact h0
    rcases hhint row col hh0 with ⟨k, hk, hbit⟩
    have hkn : ¬(k.val + 1 = n) := by
      intro hkn
      rw [clearHint_hits s row col n k hkn] at hbit
      exact Bool.noConfusion hbit
    refine ⟨⟨⟨hsolv, ?_⟩, ?_⟩, ?_⟩
    · intro r c hrc
      exact hext r c (by rw [hgr]; exact hrc)
    · intro r c hrc
      rcases hhint r c (by rw [hgr]; exact hrc) with ⟨k', hk', hbit'⟩
      exact ⟨k', hk', clearHint_hints_le s row col n r c k' hbit'⟩
    · rw [← hk]
      omega
  · rintro ⟨⟨⟨hsolv, hext⟩, hhint⟩, hne⟩
    refine ⟨⟨hsolv, ?_⟩, ?_⟩
    · intro r c hrc
      rw [hgr] at hrc
      exact hext r c hrc
    · intro r c hrc
      rw [hgr] at hrc
      rcases hhint r c hrc with ⟨k, hk, hbit⟩
      refine ⟨k, hk, ?_⟩
      rw [clearHint_miss s row col n r c k ?_]
      · exact hbit
      · rintro ⟨rfl, rfl, hkn⟩
        exact hne (by rw [← hk, hkn])

/-- Disjointness of the reachable solution sets of two stack entries. -/
def DisjointSols (a b : Sudoku) : Prop :=
  ∀ g' : Grid, ¬(ReachSol a g' ∧ ReachSol b g')

/-- Master invariant of the solver loop: the grids it yields from a stack
are exactly the solutions reachable from some stack entry, every yielded
board is solved, and for a stack whose entries have pairwise disjoint
reachable-solution sets the yielded grids contain no duplicate. -/
theorem solsFuel_spec : ∀ (fuel : Nat) (l : List Sudoku), stackMeasure l ≤ fuel →
    (∀ g' : Grid, g' ∈ (solsFuel fuel l).map Sudoku.grid ↔ ∃ s ∈ l, ReachSol s g') ∧
    (∀ b ∈ solsFuel fuel l, is_solved b = true) ∧
    (List.Pairwise DisjointSols l → ((solsFuel fuel l).map Sudoku.grid).Nodup) := by
  intro fuel
  induction fuel with
  | zero =>
    intro l hle
    cases l with
    | nil => refine ⟨?_, ?_, ?_⟩ <;> simp [solsFuel]
    | cons s rest =>
      exfalso
      have h1 : 0 < 3 ^ hintBits s := pow_pos (by norm_num) _
      rw [stackMeasure_cons] at hle
      omega
  | succ fuel ih =>
    intro l hle
    cases l with
    | nil => refine ⟨?_, ?_, ?_⟩ <;> simp [solsFuel]
    | cons s rest =>
      have hrest : stackMeasure rest ≤ fuel := by
        have := stackMeasure_tail_lt s rest
        omega
      cases hfm : find_min_poss s with
      | none =>
        have hred : solsFuel (fuel + 1) (s :: rest)
            = if is_solved s = true then s :: solsFuel fuel rest
              else solsFuel fuel rest := by
          simp only [solsFuel, hfm]
        obtain ⟨ihmem, ihsolved, ihnodup⟩ := ih rest hrest
        by_cases hsol : is_solved s = true
        · rw [hred, if_pos hsol]
          refine ⟨?_, ?_, ?_⟩
          · intro g'
            rw [List.map_cons, List.mem_cons]
            constructor
            · rintro (rfl | hmem)
              · exact ⟨s, List.mem_cons_self _ _,
                  (reachSol_terminal hfm s.grid).mpr ⟨hsol, rfl⟩⟩
              · rcases (ihmem g').mp hmem with ⟨t, ht, hr⟩
                exact ⟨t, List.mem_cons_of_mem s ht, hr⟩
            · rintro ⟨t, ht, hr⟩
              rcases List.mem_cons.mp ht with rfl | ht'
              · left
                exact ((reachSol_terminal hfm g').mp hr).2
              · right
                exact (ihmem g').mpr ⟨t, ht', hr⟩
          · intro b hb
            rcases List.mem_cons.mp hb with rfl | hb'
            · exact hsol
            · exact ihsolved b hb'
          · intro hpw
            rcases List.pairwise_cons.mp hpw with ⟨hhead, htail⟩
            rw [List.map_cons]
            refine List.nodup_cons.mpr ⟨?_, ihnodup htail⟩
            intro hmem
            rcases (ihmem s.grid).mp hmem with ⟨t, ht, hr⟩
            exact hhead t ht s.grid
              ⟨(reachSol_terminal hfm s.grid).mpr ⟨hsol, rfl⟩, hr⟩
        · rw [hred, if_neg hsol]
          refine ⟨?_, ihsolved, fun hpw => ihnodup (List.pairwise_cons.mp hpw).2⟩
          intro g'
          rw [ihmem g']
          constructor
          · rintro ⟨t, ht, hr⟩
            exact ⟨t, List.mem_cons_of_mem s ht, hr⟩
          · rintro ⟨t, ht, hr⟩
            rcases List.mem_cons.mp ht with rfl | ht'
            · exact absurd ((reachSol_terminal hfm g').mp hr).1 hsol
            · exact ⟨t, ht', hr⟩
      | some rc =>
        obtain ⟨row, col⟩ := rc
        cases hlow : lowest (s.hints row col) with
        | none =>
          have hred : solsFuel (fuel + 1) (s :: rest) = solsFuel fuel rest := by
            simp only [solsFuel, hfm, hlow]
          obtain ⟨ihmem, ihsolved, ihnodup⟩ := ih rest hrest
          rw [hred]
          refine ⟨?_, ihsolved, fun hpw => ihnodup (List.pairwise_cons.mp hpw).2⟩
          intro g'
          rw [ihmem g']
          constructor
          · rintro ⟨t, ht, hr⟩
            exact ⟨t, List.mem_cons_of_mem s ht, hr⟩
          · rintro ⟨t, ht, hr⟩
            rcases List.mem_cons.mp ht with rfl | ht'
            · exact absurd hr (reachSol_dead hfm hlow g')
            · exact ⟨t, ht', hr⟩
        | some n =>
          have h0 : s.grid row col = 0 := find_min_some_empty hfm
          have hbitex : ∃ k : Fin 9, k.val + 1 = n ∧ s.hints row col k = true := by
            rcases lowest_cases (s.hints row col) with hnone | ⟨k0, hsome, hbit⟩
            · rw [hlow] at hnone
              exact Option.noConfusion hnone
            · rw [hlow] at hsome
              exact ⟨k0, (Option.some.inj hsome).symm, hbit⟩
          have hpush : stackMeasure
              (put_at s n row col :: clearHint s row col n :: rest) ≤ fuel := by
            have := solver_push_lt s rest row col n hfm hlow
            omega
          obtain ⟨ihmem, ihsolved, ihnodup⟩ := ih _ hpush
          have hred : solsFuel (fuel + 1) (s :: rest)
              = solsFuel fuel (put_at s n row col :: clearHint s row col n :: rest) := by
            simp only [solsFuel, hfm, hlow]
          rw [hred]
          refine ⟨?_, ihsolved, ?_⟩
          · intro g'
            rw [ihmem g']
            constructor
            · rintro ⟨t, ht, hr⟩
              rcases List.mem_cons.mp ht with rfl | ht'
              · exact ⟨s, List.mem_cons_self _ _, ((reachSol_put h0 hbitex g').mp hr).1⟩
              · rcases List.mem_cons.mp ht' with rfl | ht''
                · exact ⟨s, List.mem_cons_self _ _, ((reachSol_clear h0 g').mp hr).1⟩
                · exact ⟨t, List.mem_cons_of_mem s ht'', hr⟩
            · rintro ⟨t, ht, hr⟩
              rcases List.mem_cons.mp ht with rfl | ht'
              · by_cases hgn : g' row col = n
                · exact ⟨put_at t n row col, List.mem_cons_self _ _,
                    (reachSol_put h0 hbitex g').mpr ⟨hr, hgn⟩⟩
                · exact ⟨clearHint t row col n,
                    List.mem_cons_of_mem _ (List.mem_cons_self _ _),
                    (reachSol_clear h0 g').mpr ⟨hr, hgn⟩⟩
              · exact ⟨t, List.mem_cons_of_mem _ (List.mem_cons_of_mem _ ht'), hr⟩
          · intro hpw
            rcases List.pairwise_cons.mp hpw with ⟨hhead, htail⟩
            apply ihnodup
            refine List.pairwise_cons.mpr ⟨?_, List.pairwise_cons.mpr ⟨?_, htail⟩⟩
            · rintro b hb g' ⟨h1, h2⟩
              have hp := (reachSol_put h0 hbitex g').mp h1
              rcases List.mem_cons.mp hb with rfl | hb'
              · have hcq := (reachSol_clear h0 g').mp h2
                exact hcq.2 hp.2
              · exact hhead b hb' g' ⟨hp.1, h2⟩
            · rintro b hb g' ⟨h1, h2⟩
              have hcq := (reachSol_clear h0 g').mp h1
              exact hhead b hb g' ⟨hcq.1, h2⟩

/-- Any digit a completion places in an empty cell was valid there. -/
theorem completion_valid {g g' : Grid} (hc : IsCompletion g g') (r c : Fin 9)
    (h0 : g r c = 0) : is_valid_at g (g' r c) r c = true := by
  rcases hc with ⟨hsolv, hext⟩
  rcases hsolv r c with ⟨hnz, hv⟩
  rcases (is_valid_at_iff g' (g' r c) r c).mp hv with ⟨h9, -⟩
  refine (is_valid_at_iff g (g' r c) r c).mpr ⟨h9, ?_⟩
  intro i j hp heq
  have hnz' : g i j ≠ 0 := by rw [heq]; exact hnz
  have hgij := hext i j hnz'
  exact solved_peer_ne hsolv hp (by rw [hgij, heq])

/-- For a board with exact empty-cell hints, the solver-reachable
solutions are exactly the completions of its grid. -/
theorem reachSol_iff_completion {b : Sudoku} (hE : emptyExact b) (g' : Grid) :
    ReachSol b g' ↔ IsCompletion b.grid g' := by
  constructor
  · exact fun h => h.1
  · intro hc
    refine ⟨hc, ?_⟩
    intro r c hrc
    have hv := completion_valid hc r c hrc
    have h9 : g' r c ≤ 9 := ((is_valid_at_iff b.grid (g' r c) r c).mp hv).1
    have hnz : g' r c ≠ 0 := (hc.1 r c).1
    refine ⟨⟨g' r c - 1, by omega⟩, by simp; omega, ?_⟩
    rw [hE r c hrc ⟨g' r c - 1, by omega⟩]
    show is_valid_at b.grid ((g' r c - 1) + 1) r c = true
    rw [show (g' r c - 1) + 1 = g' r c by omega]
    exact hv

theorem length_le_one_of_all_eq {α : Type} (l : List α) (a : α)
    (hnd : l.Nodup) (h : ∀ x ∈ l, x = a) : l.length ≤ 1 := by
  cases l with
  | nil => simp
  | cons x t =>
    cases t with
    | nil => simp
    | cons y u =>
      exfalso
      have hx : x = a := h x (List.mem_cons_self _ _)
      have hy : y = a := h y (List.mem_cons_of_mem _ (List.mem_cons_self _ _))
      rcases List.nodup_cons.mp hnd with ⟨hxm, -⟩
      exact hxm (by rw [hx, ← hy]; exact List.mem_cons_self _ _)

/-- C4: for every validly constructed board `b`, the sequence
`solutions(b)` — modelled as the full finite list of yields of the
iterator's loop — consists of solved completions of `b`, contains every
completion of `b` exactly once (no duplicate grids), and in particular a
board admitting exactly two completions yields exactly two boards and no
third element. -/
theorem solutions_spec (g0 : Grid) (b : Sudoku) (hok : from_grid g0 = Except.ok b) :
    (∀ x ∈ solutions b, is_solved x = true ∧ IsCompletion b.grid x.grid) ∧
    (∀ g' : Grid, IsCompletion b.grid g' ↔ g' ∈ (solutions b).map Sudoku.grid) ∧
    ((solutions b).map Sudoku.grid).Nodup ∧
    (∀ g1 g2 : Grid, g1 ≠ g2 →
      (∀ g' : Grid, IsCompletion b.grid g' ↔ (g' = g1 ∨ g' = g2)) →
      (solutions b).length = 2) := by
  have hE : emptyExact b := (from_grid_inv hok).1
  obtain ⟨hmem, hsolved, hnodup⟩ := solsFuel_spec (stackMeasure [b]) [b] (le_refl _)
  have hsol_eq : solutions b = solsFuel (stackMeasure [b]) [b] := rfl
  have hmem' : ∀ g' : Grid,
      g' ∈ (solutions b).map Sudoku.grid ↔ IsCompletion b.grid g' := by
    intro g'
    rw [hsol_eq, hmem g']
    constructor
    · rintro ⟨t, ht, hr⟩
      rw [List.mem_singleton.mp ht] at hr
      exact (reachSol_iff_completion hE g').mp hr
    · intro hc
      exact ⟨b, List.mem_singleton.mpr rfl, (reachSol_iff_completion hE g').mpr hc⟩
  have hnd : ((solutions b).map Sudoku.grid).Nodup := by
    rw [hsol_eq]
    exact hnodup (List.pairwise_singleton _ _)
  refine ⟨?_, fun g' => (hmem' g').symm, hnd, ?_⟩
  · intro x hx
    refine ⟨?_, ?_⟩
    · rw [hsol_eq] at hx
      exact hsolved x hx
    · exact (hmem' x.grid).mp (List.mem_map_of_mem Sudoku.grid hx)
  · intro g1 g2 hne hiff
    have hLmem : ∀ x, x ∈ (solutions b).map Sudoku.grid ↔ (x = g1 ∨ x = g2) := by
      intro x
      rw [hmem' x, hiff x]
    have hfin : ((solutions b).map Sudoku.grid).toFinset = {g1, g2} := by
      ext x
      rw [List.mem_toFinset, hLmem x]
      simp
    have hcard : ((solutions b).map Sudoku.grid).toFinset.card = 2 := by
      rw [hfin]
      rw [Finset.card_insert_of_not_mem (by simp [hne]), Finset.card_singleton]
    calc (solutions b).length
        = ((solutions b).map Sudoku.grid).length := (List.length_map _ _).symm
      _ = ((solutions b).map Sudoku.grid).toFinset.card :=
          (List.toFinset_card_of_nodup hnd).symm
      _ = 2 := hcard

/-- A concretely solved grid used as a cheap test board. -/
def solvedGrid : Grid := fun i j => (i.val * 3 + i.val / 3 + j.val) % 9 + 1

theorem solutions_spec_witness :
    from_grid solvedGrid = Except.ok (mkBoard solvedGrid) ∧
    ((solutions (mkBoard solvedGrid)).map Sudoku.grid).Nodup :=
  ⟨from_grid_eq_ok solvedGrid (by decide),
    (solutions_spec solvedGrid (mkBoard solvedGrid)
      (from_grid_eq_ok solvedGrid (by decide))).2.2.1⟩

/-- `has_solution` decides existence of a completion (for boards with
exact empty-cell hints). -/
theorem has_solution_iff {b : Sudoku} (hE : emptyExact b) :
    has_solution b = true ↔ ∃ g' : Grid, IsCompletion b.grid g' := by
  obtain ⟨hmem, -, -⟩ := solsFuel_spec (stackMeasure [b]) [b] (le_refl _)
  have hhs : has_solution b = !(solsFuel (stackMeasure [b]) [b]).isEmpty := rfl
  constructor
  · intro h
    rw [hhs] at h
    have hne : solsFuel (stackMeasure [b]) [b] ≠ [] := by
      intro hnil
      rw [hnil] at h
      exact Bool.noConfusion h
    cases hL : solsFuel (stackMeasure [b]) [b] with
    | nil => exact absurd hL hne
    | cons x t =>
      have hx : x.grid ∈ (solsFuel (stackMeasure [b]) [b]).map Sudoku.grid := by
        rw [hL]
        simp
      rcases (hmem x.grid).mp hx with ⟨s, hs, hr⟩
      rw [List.mem_singleton.mp hs] at hr
      exact ⟨x.grid, (reachSol_iff_completion hE x.grid).mp hr⟩
  · rintro ⟨g', hc⟩
    have hmemL : g' ∈ (solsFuel (stackMeasure [b]) [b]).map Sudoku.grid :=
      (hmem g').mpr ⟨b, List.mem_singleton.mpr rfl,
        (reachSol_iff_completion hE g').mpr hc⟩
    have hneL : solsFuel (stackMeasure [b]) [b] ≠ [] := by
      intro hnil
      rw [hnil] at hmemL
      simp at hmemL
    rw [hhs]
    cases hL : solsFuel (stackMeasure [b]) [b] with
    | nil => exact absurd hL hneL
    | cons x t => rfl

/-- `has_unique_solution` decides unique existence of a completion (for
boards with exact empty-cell hints). -/
theorem has_unique_solution_iff {b : Sudoku} (hE : emptyExact b) :
    has_unique_solution b = true ↔ ∃! g' : Grid, IsCompletion b.grid g' := by
  obtain ⟨hmem, hsolved, hnodup⟩ := solsFuel_spec (stackMeasure [b]) [b] (le_refl _)
  have hLdef : solutions b = solsFuel (stackMeasure [b]) [b] := rfl
  have hhu : has_unique_solution b = (((solutions b).take 2).length == 1) := rfl
  have htake : ((solutions b).take 2).length = min 2 (solutions b).length := by
    rw [List.length_take]
  constructor
  · intro h
    rw [hhu, beq_iff_eq] at h
    have hlen : (solutions b).length = 1 := by omega
    obtain ⟨x, hx⟩ := List.length_eq_one.mp hlen
    refine ⟨x.grid, ?_, ?_⟩
    · have hxm : x.grid ∈ (solutions b).map Sudoku.grid := by
        rw [hx]
        simp
      rw [hLdef] at hxm
      rcases (hmem x.grid).mp hxm with ⟨s, hs, hr⟩
      rw [List.mem_singleton.mp hs] at hr
      exact (reachSol_iff_completion hE x.grid).mp hr
    · intro y hy
      have hym : y ∈ (solutions b).map Sudoku.grid := by
        rw [hLdef]
        exact (hmem y).mpr ⟨b, List.mem_singleton.mpr rfl,
          (reachSol_iff_completion hE y).mpr hy⟩
      rw [hx] at hym
      simpa using hym
  · rintro ⟨gu, hgu, huniq⟩
    have hmem0 : gu ∈ (solutions b).map Sudoku.grid := by
      rw [hLdef]
      exact (hmem gu).mpr ⟨b, List.mem_singleton.mpr rfl,
        (reachSol_iff_completion hE gu).mpr hgu⟩
    have hnd : ((solutions b).map Sudoku.grid).Nodup := by
      rw [hLdef]
      exact hnodup (List.pairwise_singleton _ _)
    have hall : ∀ x ∈ (solutions b).map Sudoku.grid, x = gu := by
      intro x hx
      rw [hLdef] at hx
      rcases (hmem x).mp hx with ⟨s, hs, hr⟩
      rw [List.mem_singleton.mp hs] at hr
      exact huniq x ((reachSol_iff_completion hE x).mp hr)
    have hle1 : ((solutions b).map Sudoku.grid).length ≤ 1 :=
      length_le_one_of_all_eq _ gu hnd hall
    have hge1 : 0 < ((solutions b).map Sudoku.grid).length :=
      List.length_pos.mpr (List.ne_nil_of_mem hmem0)
    have hlen : (solutions b).length = 1 := by
      have hml : ((solutions b).map Sudoku.grid).length = (solutions b).length :=
        List.length_map _ _
      omega
    rw [hhu, beq_iff_eq]
    omega

/-- The all-zero grid (`[[0; 9]; 9]`). -/
def zeroGrid : Grid := fun _ _ => 0

/-- `Sudoku::generate_filled`'s inner candidate loop at cell `(i, j)`:
place each digit of `order` in turn, keep it as soon as the board still
has a solution, otherwise remove it again and try the next. -/
def tryNums (i j : Fin 9) : Sudoku → List Nat → Sudoku
  | s, [] => s
  | s, n :: rest =>
    let s1 := put_at s n i j
    if has_solution s1 then s1 else tryNums i j (remove_at s1 i j).2 rest

/-- One cell of the `generate_filled` loop: shuffle the cell's candidate
list with the supplied RNG behaviour, then try the candidates. -/
def fillStep (shuffle : Fin 9 → Fin 9 → List Nat → List Nat)
    (s : Sudoku) (p : Fin 9 × Fin 9) : Sudoku :=
  tryNums p.1 p.2 s (shuffle p.1 p.2 (hintList (s.hints p.1 p.2)))

/-- `Sudoku::generate_filled` with the RNG abstracted into `shuffle`, the
behaviour of `rand::thread_rng().shuffle` on each cell's candidate list. -/
def generate_filled (shuffle : Fin 9 → Fin 9 → List Nat → List Nat) : Sudoku :=
  allCells.foldl (fillStep shuffle) (mkBoard zeroGrid)

/-- One position of the digging loop of `Sudoku::generate`: remove the
entry; if the board no longer has a unique solution, put it back. -/
def digStep (s : Sudoku) (p : Fin 9 × Fin 9) : Sudoku :=
  let removed := (remove_at s p.1 p.2).1
  let s1 := (remove_at s p.1 p.2).2
  if has_unique_solution s1 then s1 else put_at s1 removed p.1 p.2

/-- `Sudoku::generate` with the RNG abstracted: `shuffle` drives the fill
phase and `positions` is the shuffled list of all 81 positions dug in
turn. -/
def generate (shuffle : Fin 9 → Fin 9 → List Nat → List Nat)
    (positions : List (Fin 9 × Fin 9)) : Sudoku :=
  positions.foldl digStep (generate_filled shuffle)

/-- All cell values at most 9 (true of every board the program builds,
since `u8` entries beyond 9 are rejected at construction). -/
def gridBounded (s : Sudoku) : Prop := ∀ r c : Fin 9, s.grid r c ≤ 9

theorem mem_hintList {h : Fin 9 → Bool} {n : Nat} :
    n ∈ hintList h ↔ ∃ k : Fin 9, k.val + 1 = n ∧ h k = true := by
  unfold hintList
  rw [List.mem_map]
  constructor
  · rintro ⟨k, hk, rfl⟩
    exact ⟨k, rfl, (List.mem_filter.mp hk).2⟩
  · rintro ⟨k, hkn, hk⟩
    exact ⟨k, List.mem_filter.mpr ⟨List.mem_finRange k, hk⟩, hkn⟩

/-- The completions of a solved grid are exactly the grid itself. -/
theorem completion_of_solved {g : Grid} (hs : SolvedGrid g) (g' : Grid) :
    IsCompletion g g' ↔ g' = g := by
  constructor
  · rintro ⟨-, hext⟩
    funext r c
    exact hext r c (hs r c).1
  · rintro rfl
    exact ⟨hs, fun _ _ _ => rfl⟩

theorem tryNums_cons (s : Sudoku) (i j : Fin 9) (n : Nat) (rest : List Nat) :
    tryNums i j s (n :: rest)
      = if has_solution (put_at s n i j) = true then put_at s n i j
        else tryNums i j (remove_at (put_at s n i j) i j).2 rest := rfl

/-- Specification of the candidate loop at one cell: it preserves the
invariants, touches no other cell, and — when some completion's value at
the cell appears in the tried order — fills the cell while keeping the
board completable. -/
theorem tryNums_spec : ∀ (order : List Nat) (s : Sudoku) (i j : Fin 9),
    emptyExact s → hintSound s → gridBounded s → s.grid i j = 0 →
    (∀ n ∈ order, 1 ≤ n ∧ n ≤ 9) →
    emptyExact (tryNums i j s order) ∧ hintSound (tryNums i j s order) ∧
    gridBounded (tryNums i j s order) ∧
    (∀ r c : Fin 9, ¬(r = i ∧ c = j) →
      (tryNums i j s order).grid r c = s.grid r c) ∧
    ((∃ g', IsCompletion s.grid g' ∧ g' i j ∈ order) →
      (tryNums i j s order).grid i j ≠ 0 ∧
      ∃ g', IsCompletion (tryNums i j s order).grid g') := by
  intro order
  induction order with
  | nil =>
    intro s i j hE hS hB h0 hbnd
    refine ⟨hE, hS, hB, fun _ _ _ => rfl, ?_⟩
    rintro ⟨g', -, hmem⟩
    exact absurd hmem (List.not_mem_nil _)
  | cons n rest ih =>
    intro s i j hE hS hB h0 hbnd
    obtain ⟨hn1, hn9⟩ := hbnd n (List.mem_cons_self _ _)
    obtain ⟨hE1, hS1⟩ := put_at_inv s n i j hn1 hn9 hE hS
    have hg1 : (put_at s n i j).grid = setCell s.grid i j n := put_at_grid s n i j
    have hB1 : gridBounded (put_at s n i j) := by
      intro r c
      rw [hg1]
      by_cases hc : r = i ∧ c = j
      · rcases hc with ⟨rfl, rfl⟩
        rw [setCell_same]
        exact hn9
      · rw [setCell_of_ne _ _ hc]
        exact hB r c
    rw [tryNums_cons]
    by_cases hsol : has_solution (put_at s n i j) = true
    · rw [if_pos hsol]
      refine ⟨hE1, hS1, hB1, ?_, ?_⟩
      · intro r c hc
        rw [hg1, setCell_of_ne _ _ hc]
      · intro _
        refine ⟨?_, (has_solution_iff hE1).mp hsol⟩
        rw [hg1, setCell_same]
        omega
    · rw [if_neg hsol]
      set s2 := (remove_at (put_at s n i j) i j).2 with hs2
      obtain ⟨hE2, hS2⟩ := remove_at_inv (put_at s n i j) i j hE1 hS1
      have hg2 : s2.grid = s.grid := by
        rw [hs2, remove_at_grid, hg1, setCell_setCell]
        exact setCell_self s.grid i j 0 h0
      have hB2 : gridBounded s2 := by
        intro r c
        rw [hg2]
        exact hB r c
      have h02 : s2.grid i j = 0 := by rw [hg2]; exact h0
      have hbnd' : ∀ m ∈ rest, 1 ≤ m ∧ m ≤ 9 :=
        fun m hm => hbnd m (List.mem_cons_of_mem _ hm)
      obtain ⟨ihE, ihS, ihB, ihframe, ihfill⟩ := ih s2 i j hE2 hS2 hB2 h02 hbnd'
      refine ⟨ihE, ihS, ihB, ?_, ?_⟩
      · intro r c hc
        rw [ihframe r c hc, hg2]
      · rintro ⟨g', hcomp, hmem⟩
        have hgin : g' i j ≠ n := by
          intro hgn
          -- then the completion also completes the board with n placed,
          -- contradicting the failed has_solution test
          have hc1 : IsCompletion (put_at s n i j).grid g' := by
            refine ⟨hcomp.1, ?_⟩
            intro r c hrc
            rw [hg1]
            by_cases hc : r = i ∧ c = j
            · rcases hc with ⟨rfl, rfl⟩
              rw [setCell_same]
              exact hgn
            · rw [setCell_of_ne _ _ hc]
              rw [hg1, setCell_of_ne _ _ hc] at hrc
              exact hcomp.2 r c hrc
          exact hsol ((has_solution_iff hE1).mpr ⟨g', hc1⟩)
        have hmem' : g' i j ∈ rest := by
          rcases List.mem_cons.mp hmem with heq | hm
          · exact absurd heq hgin
          · exact hm
        refine ihfill ⟨g', ?_, hmem'⟩
        rw [hg2]
        exact hcomp

/-- The fill loop over a list of distinct still-empty cells: invariants
are preserved, completability is preserved, every processed cell gets
filled, and already-filled cells are untouched. -/
theorem fill_fold_spec (shuffle : Fin 9 → Fin 9 → List Nat → List Nat)
    (hsh : ∀ (i j : Fin 9) (l : List Nat), (shuffle i j l).Perm l) :
    ∀ (cells : List (Fin 9 × Fin 9)), cells.Nodup → ∀ s : Sudoku,
      emptyExact s → hintSound s → gridBounded s →
      (∃ g', IsCompletion s.grid g') →
      (∀ p ∈ cells, s.grid p.1 p.2 = 0) →
      emptyExact (cells.foldl (fillStep shuffle) s) ∧
      hintSound (cells.foldl (fillStep shuffle) s) ∧
      gridBounded (cells.foldl (fillStep shuffle) s) ∧
      (∃ g', IsCompletion (cells.foldl (fillStep shuffle) s).grid g') ∧
      (∀ p ∈ cells, (cells.foldl (fillStep shuffle) s).grid p.1 p.2 ≠ 0) ∧
      (∀ r c : Fin 9, s.grid r c ≠ 0 →
        (cells.foldl (fillStep shuffle) s).grid r c = s.grid r c) := by
  intro cells
  induction cells with
  | nil =>
    intro _ s hE hS hB hex _
    refine ⟨hE, hS, hB, hex, ?_, fun _ _ _ => rfl⟩
    intro p hp
    exact absurd hp (List.not_mem_nil _)
  | cons p rest ih =>
    intro hnd s hE hS hB hex hempty
    have h0p : s.grid p.1 p.2 = 0 := hempty p (List.mem_cons_self _ _)
    set order := shuffle p.1 p.2 (hintList (s.hints p.1 p.2)) with horder
    have hbounds : ∀ n ∈ order, 1 ≤ n ∧ n ≤ 9 := by
      intro n hn
      have hmem : n ∈ hintList (s.hints p.1 p.2) := (hsh p.1 p.2 _).mem_iff.mp hn
      rcases mem_hintList.mp hmem with ⟨k, hk, -⟩
      omega
    obtain ⟨hE1, hS1, hB1, hframe1, hfill1⟩ :=
      tryNums_spec order s p.1 p.2 hE hS hB h0p hbounds
    obtain ⟨g', hcomp⟩ := hex
    have hval : g' p.1 p.2 ∈ order := by
      apply (hsh p.1 p.2 _).mem_iff.mpr
      apply mem_hintList.mpr
      have hv := completion_valid hcomp p.1 p.2 h0p
      have h9 : g' p.1 p.2 ≤ 9 :=
        ((is_valid_at_iff s.grid (g' p.1 p.2) p.1 p.2).mp hv).1
      have hnz : g' p.1 p.2 ≠ 0 := (hcomp.1 p.1 p.2).1
      refine ⟨⟨g' p.1 p.2 - 1, by omega⟩, by simp; omega, ?_⟩
      rw [hE p.1 p.2 h0p ⟨g' p.1 p.2 - 1, by omega⟩]
      show is_valid_at s.grid ((g' p.1 p.2 - 1) + 1) p.1 p.2 = true
      rw [show (g' p.1 p.2 - 1) + 1 = g' p.1 p.2 by omega]
      exact hv
    obtain ⟨hfilled, hcomp1⟩ := hfill1 ⟨g', hcomp, hval⟩
    have hstep : fillStep shuffle s p = tryNums p.1 p.2 s order := rfl
    have hrest_empty : ∀ q ∈ rest, (fillStep shuffle s p).grid q.1 q.2 = 0 := by
      intro q hq
      have hqp : ¬(q.1 = p.1 ∧ q.2 = p.2) := by
        rintro ⟨h1, h2⟩
        exact (List.nodup_cons.mp hnd).1 (by rw [← Prod.ext h1 h2]; exact hq)
      rw [hstep, hframe1 q.1 q.2 hqp]
      exact hempty q (List.mem_cons_of_mem _ hq)
    obtain ⟨ihE, ihS, ihB, ihcomp, ihfilled, ihframe⟩ :=
      ih (List.nodup_cons.mp hnd).2 (fillStep shuffle s p)
        (hstep ▸ hE1) (hstep ▸ hS1) (hstep ▸ hB1) (hstep ▸ hcomp1) hrest_empty
    rw [List.foldl_cons]
    refine ⟨ihE, ihS, ihB, ihcomp, ?_, ?_⟩
    · intro q hq
      rcases List.mem_cons.mp hq with rfl | hq'
      · have hne : (fillStep shuffle s q).grid q.1 q.2 ≠ 0 := hstep ▸ hfilled
        rw [ihframe q.1 q.2 hne]
        exact hne
      · exact ihfilled q hq'
    · intro r c hrc
      have hc : ¬(r = p.1 ∧ c = p.2) := by
        rintro ⟨rfl, rfl⟩
        exact hrc h0p
      have h1 : (fillStep shuffle s p).grid r c = s.grid r c := by
        rw [hstep]
        exact hframe1 r c hc
      rw [ihframe r c (by rw [h1]; exact hrc), h1]

/-- The fill phase produces a solved board (for every RNG behaviour), and
the board keeps the hint invariants. -/
theorem generate_filled_spec (shuffle : Fin 9 → Fin 9 → List Nat → List Nat)
    (hsh : ∀ (i j : Fin 9) (l : List Nat), (shuffle i j l).Perm l) :
    emptyExact (generate_filled shuffle) ∧ hintSound (generate_filled shuffle) ∧
    gridBounded (generate_filled shuffle) ∧
    is_solved (generate_filled shuffle) = true := by
  have hmem : ∀ p : Fin 9 × Fin 9, p ∈ allCells := by decide
  have hnd : allCells.Nodup := by decide
  obtain ⟨hE0, hS0⟩ := from_grid_inv (from_grid_eq_ok zeroGrid (by decide))
  have hB0 : gridBounded (mkBoard zeroGrid) := by
    intro r c
    show (0 : Nat) ≤ 9
    omega
  have hcomp0 : ∃ g', IsCompletion (mkBoard zeroGrid).grid g' :=
    ⟨solvedGrid, by decide, fun r c h => absurd rfl h⟩
  have hempty0 : ∀ p ∈ allCells, (mkBoard zeroGrid).grid p.1 p.2 = 0 :=
    fun _ _ => rfl
  obtain ⟨hE, hS, hB, hcomp, hfilled, -⟩ :=
    fill_fold_spec shuffle hsh allCells hnd (mkBoard zeroGrid)
      hE0 hS0 hB0 hcomp0 hempty0
  refine ⟨hE, hS, hB, ?_⟩
  obtain ⟨g', hg'⟩ := hcomp
  have hfull : ∀ r c : Fin 9, (generate_filled shuffle).grid r c ≠ 0 :=
    fun r c => hfilled (r, c) (hmem (r, c))
  have hgeq : g' = (generate_filled shuffle).grid := by
    funext r c
    exact hg'.2 r c (hfull r c)
  rw [is_solved_iff]
  rw [← hgeq]
  exact hg'.1

/-- The digging loop preserves the invariants and solution uniqueness:
when removing an entry breaks uniqueness, putting it back restores the
grid exactly, and uniqueness depends only on the grid. -/
theorem dig_fold_spec : ∀ (positions : List (Fin 9 × Fin 9)) (s : Sudoku),
    emptyExact s → hintSound s → gridBounded s →
    (∃! g', IsCompletion s.grid g') →
    emptyExact (positions.foldl digStep s) ∧
    hintSound (positions.foldl digStep s) ∧
    gridBounded (positions.foldl digStep s) ∧
    (∃! g', IsCompletion (positions.foldl digStep s).grid g') := by
  intro positions
  induction positions with
  | nil =>
    intro s hE hS hB hu
    exact ⟨hE, hS, hB, hu⟩
  | cons p rest ih =>
    intro s hE hS hB hu
    rw [List.foldl_cons]
    obtain ⟨hE1, hS1⟩ := remove_at_inv s p.1 p.2 hE hS
    have hg1 : (remove_at s p.1 p.2).2.grid = setCell s.grid p.1 p.2 0 :=
      remove_at_grid s p.1 p.2
    have hB1 : gridBounded (remove_at s p.1 p.2).2 := by
      intro r c
      rw [hg1]
      by_cases hc : r = p.1 ∧ c = p.2
      · rcases hc with ⟨rfl, rfl⟩
        rw [setCell_same]
        omega
      · rw [setCell_of_ne _ _ hc]
        exact hB r c
    have hstep : digStep s p
        = if has_unique_solution (remove_at s p.1 p.2).2 = true
          then (remove_at s p.1 p.2).2
          else put_at (remove_at s p.1 p.2).2 (remove_at s p.1 p.2).1 p.1 p.2 := rfl
    by_cases hun : has_unique_solution (remove_at s p.1 p.2).2 = true
    · rw [hstep, if_pos hun]
      exact ih _ hE1 hS1 hB1 ((has_unique_solution_iff hE1).mp hun)
    · rw [hstep, if_neg hun]
      have hrm0 : s.grid p.1 p.2 ≠ 0 := by
        intro h00
        have hid : remove_at s p.1 p.2 = (0, s) := remove_at_of_empty s p.1 p.2 h00
        rw [hid] at hun
        exact hun ((has_unique_solution_iff hE).mpr hu)
      have hrm1 : 1 ≤ (remove_at s p.1 p.2).1 := by
        rw [remove_at_fst]
        omega
      have hrm9 : (remove_at s p.1 p.2).1 ≤ 9 := by
        rw [remove_at_fst]
        exact hB p.1 p.2
      obtain ⟨hE2, hS2⟩ := put_at_inv _ _ p.1 p.2 hrm1 hrm9 hE1 hS1
      have hg2 : (put_at (remove_at s p.1 p.2).2 (remove_at s p.1 p.2).1 p.1 p.2).grid
          = s.grid := by
        rw [put_at_grid, hg1, setCell_setCell, remove_at_fst]
        exact setCell_self s.grid p.1 p.2 (s.grid p.1 p.2) rfl
      have hB2 : gridBounded
          (put_at (remove_at s p.1 p.2).2 (remove_at s p.1 p.2).1 p.1 p.2) := by
        intro r c
        rw [hg2]
        exact hB r c
      have hu2 : ∃! g', IsCompletion
          (put_at (remove_at s p.1 p.2).2 (remove_at s p.1 p.2).1 p.1 p.2).grid g' := by
        rw [hg2]
        exact hu
      exact ih _ hE2 hS2 hB2 hu2

/-- C3: for every behaviour of the random-permutation source — any
shuffling oracle that returns a permutation of the candidate list it is
given, and any permutation of the 81 positions for the digging phase —
the board returned by `generate` has exactly one solution:
`has_unique_solution` is true of the result, so the final assertion of
the source never fails. -/
theorem generate_has_unique_solution
    (shuffle : Fin 9 → Fin 9 → List Nat → List Nat)
    (positions : List (Fin 9 × Fin 9))
    (hsh : ∀ (i j : Fin 9) (l : List Nat), (shuffle i j l).Perm l)
    (hpos : positions.Perm allCells) :
    has_unique_solution (generate shuffle positions) = true := by
  obtain ⟨hE, hS, hB, hsol⟩ := generate_filled_spec shuffle hsh
  have hu0 : ∃! g', IsCompletion (generate_filled shuffle).grid g' := by
    have hsg : SolvedGrid (generate_filled shuffle).grid :=
      (is_solved_iff _).mp hsol
    refine ⟨(generate_filled shuffle).grid,
      (completion_of_solved hsg _).mpr rfl, ?_⟩
    intro y hy
    exact (completion_of_solved hsg y).mp hy
  obtain ⟨hE', hS', hB', hu'⟩ :=
    dig_fold_spec positions (generate_filled shuffle) hE hS hB hu0
  exact (has_unique_solution_iff hE').mpr hu'

theorem generate_has_unique_solution_witness :
    has_unique_solution (generate (fun _ _ l => l) allCells) = true :=
  generate_has_unique_solution (fun _ _ l => l) allCells
    (fun _ _ l => List.Perm.refl l) (List.Perm.refl allCells)

/-- Rust `char::is_whitespace`: the Unicode `White_Space` property, the
fixed set of code points U+0009–U+000D, U+0020, U+0085, U+00A0, U+1680,
U+2000–U+200A, U+2028, U+2029, U+202F, U+205F and U+3000. -/
def rustIsWhitespace (c : Char) : Bool :=
  c.toNat == 0x09 || c.toNat == 0x0A || c.toNat == 0x0B || c.toNat == 0x0C ||
  c.toNat == 0x0D || c.toNat == 0x20 || c.toNat == 0x85 || c.toNat == 0xA0 ||
  c.toNat == 0x1680 ||
  (decide (0x2000 ≤ c.toNat) && decide (c.toNat ≤ 0x200A)) ||
  c.toNat == 0x2028 || c.toNat == 0x2029 || c.toNat == 0x202F ||
  c.toNat == 0x205F || c.toNat == 0x3000

/-- The character stream of `FromStr::from_str`: all characters of the
input except whitespace (Unicode `White_Space`, as Rust's
`char::is_whitespace`) and `|`, which are skipped without consuming a
cell position. -/
def meaningfulChars (str : String) : List Char :=
  str.toList.filter fun c => !rustIsWhitespace c && c != '|'

/-- The cell value a meaningful character denotes: digits map to their
value (`c as u8 - b'0'`), `.` and `_` to the empty cell `0`. -/
def charVal (c : Char) : Nat := if c.isDigit then c.toNat - 48 else 0

/-- The characters that may occupy a cell position: `0`–`9` (`0` empty,
`1`–`9` givens) and the empty-cell markers `.` and `_`. -/
def validCellChar (c : Char) : Prop := c.isDigit = true ∨ c = '.' ∨ c = '_'

instance (c : Char) : Decidable (validCellChar c) := by
  unfold validCellChar
  infer_instance

/-- The cell-filling loop of `FromStr::from_str` (including the final
check that no meaningful character remains), scanning the meaningful
characters row-major into positions `idx = 0..81` with
`(i, j) = (idx / 9, idx % 9)`. -/
def parseCells : List Char → Nat → Grid → Except SudokuError Grid
  | [], idx, g =>
    if idx < 81 then Except.error (SudokuError.parseEnd (idx / 9) (idx % 9))
    else Except.ok g
  | ch :: rest, idx, g =>
    if h : idx < 81 then
      if ch.isDigit then
        parseCells rest (idx + 1)
          (setCell g ⟨idx / 9, by omega⟩ ⟨idx % 9, by omega⟩ (ch.toNat - 48))
      else if ch = '.' ∨ ch = '_' then
        parseCells rest (idx + 1)
          (setCell g ⟨idx / 9, by omega⟩ ⟨idx % 9, by omega⟩ 0)
      else Except.error (SudokuError.parseChar ch (idx / 9) (idx % 9))
    else Except.error (SudokuError.parseTrailing ch)

/-- `FromStr::from_str`: scan the meaningful characters into a grid, then
validate it with `from_grid`. -/
def from_str (str : String) : Except SudokuError Sudoku :=
  match parseCells (meaningfulChars str) 0 zeroGrid with
  | Except.error e => Except.error e
  | Except.ok g => from_grid g

/-- The plain (non-alternate) `Display` form: each row is the decimal
representations of its nine cell values concatenated, rows separated by
a newline, no trailing newline. -/
def displayPlain (s : Sudoku) : String :=
  ⟨List.intercalate ['\n'] ((List.finRange 9).map fun i =>
    (List.finRange 9).flatMap fun j => (toString (s.grid i j)).toList)⟩

/-- The parse errors, as opposed to the `InvalidSudoku` validation
error. -/
def SudokuError.isParse : SudokuError → Bool
  | SudokuError.invalidSudoku => false
  | _ => true

theorem parseCells_eof : ∀ (cs : List Char) (idx : Nat) (g : Grid),
    idx + cs.length < 81 → (∀ c ∈ cs, validCellChar c) →
    parseCells cs idx g = Except.error
      (SudokuError.parseEnd ((idx + cs.length) / 9) ((idx + cs.length) % 9)) := by
  intro cs
  induction cs with
  | nil =>
    intro idx g hlt _
    simp only [parseCells, List.length_nil, Nat.add_zero]
    rw [if_pos (by omega)]
  | cons ch rest ih =>
    intro idx g hlt hv
    simp only [List.length_cons] at hlt
    have h81 : idx < 81 := by omega
    have hvc : validCellChar ch := hv ch (List.mem_cons_self _ _)
    simp only [parseCells, List.length_cons]
    rw [dif_pos h81]
    rw [show idx + (rest.length + 1) = (idx + 1) + rest.length from by omega]
    rcases hvc with hd | hdot | hdot <;> subst_vars
    · rw [if_pos hd]
      exact ih (idx + 1) _ (by omega) (fun c hc => hv c (List.mem_cons_of_mem _ hc))
    · rw [if_neg (by decide), if_pos (by decide)]
      exact ih (idx + 1) _ (by omega) (fun c hc => hv c (List.mem_cons_of_mem _ hc))
    · rw [if_neg (by decide), if_pos (by decide)]
      exact ih (idx + 1) _ (by omega) (fun c hc => hv c (List.mem_cons_of_mem _ hc))

theorem parseCells_ok : ∀ (cs : List Char) (idx : Nat) (g : Grid),
    idx + cs.length = 81 → (∀ c ∈ cs, validCellChar c) →
    parseCells cs idx g = Except.ok (fun r c : Fin 9 =>
      if r.val * 9 + c.val < idx then g r c
      else charVal (cs.getD (r.val * 9 + c.val - idx) '0')) := by
  intro cs
  induction cs with
  | nil =>
    intro idx g hlen _
    simp only [List.length_nil, Nat.add_zero] at hlen
    subst hlen
    simp only [parseCells]
    rw [if_neg (by omega)]
    congr 1
    funext r c
    have hr := r.isLt
    have hc := c.isLt
    rw [if_pos (by omega)]
  | cons ch rest ih =>
    intro idx g hlen hv
    simp only [List.length_cons] at hlen
    have h81 : idx < 81 := by omega
    have hvc : validCellChar ch := hv ch (List.mem_cons_self _ _)
    have hval : ∀ v : Nat, v = charVal ch →
        parseCells rest (idx + 1)
            (setCell g ⟨idx / 9, by omega⟩ ⟨idx % 9, by omega⟩ v)
          = Except.ok (fun r c : Fin 9 =>
            if r.val * 9 + c.val < idx then g r c
            else charVal ((ch :: rest).getD (r.val * 9 + c.val - idx) '0')) := by
      intro v hvdef
      rw [ih (idx + 1) _ (by omega) (fun c hc => hv c (List.mem_cons_of_mem _ hc))]
      congr 1
      funext r c
      have hr := r.isLt
      have hc := c.isLt
      by_cases h1 : r.val * 9 + c.val < idx
      · rw [if_pos (by omega), if_pos h1]
        apply setCell_of_ne
        rintro ⟨hcr, hccol⟩
        have hrv : r.val = idx / 9 := by rw [hcr]
        have hcv : c.val = idx % 9 := by rw [hccol]
        omega
      · by_cases h2 : r.val * 9 + c.val = idx
        · rw [if_pos (by omega), if_neg h1]
          rw [show r.val * 9 + c.val - idx = 0 from by omega, List.getD_cons_zero]
          have hrv : r = (⟨idx / 9, by omega⟩ : Fin 9) :=
            Fin.ext (show r.val = idx / 9 by omega)
          have hcv : c = (⟨idx % 9, by omega⟩ : Fin 9) :=
            Fin.ext (show c.val = idx % 9 by omega)
          simp only [setCell]
          rw [if_pos ⟨hrv, hcv⟩]
          exact hvdef
        · rw [if_neg (by omega), if_neg h1]
          rw [show r.val * 9 + c.val - idx = (r.val * 9 + c.val - (idx + 1)) + 1
            from by omega, List.getD_cons_succ]
    simp only [parseCells]
    rw [dif_pos h81]
    rcases hvc with hd | hdot | hdot
    · rw [if_pos hd]
      refine hval _ ?_
      unfold charVal
      rw [if_pos hd]
    · subst hdot
      rw [if_neg (by decide), if_pos (by decide)]
      exact hval 0 (by decide)
    · subst hdot
      rw [if_neg (by decide), if_pos (by decide)]
      exact hval 0 (by decide)

theorem parseCells_badchar : ∀ (cs : List Char) (d idx : Nat) (g : Grid),
    d < cs.length → idx + d < 81 →
    (∀ e, e < d → validCellChar (cs.getD e '0')) →
    ¬ validCellChar (cs.getD d '0') →
    parseCells cs idx g = Except.error
      (SudokuError.parseChar (cs.getD d '0') ((idx + d) / 9) ((idx + d) % 9)) := by
  intro cs
  induction cs with
  | nil =>
    intro d idx g hd
    simp at hd
  | cons ch rest ih =>
    intro d idx g hd hlt hbefore hbad
    have h81 : idx < 81 := by omega
    cases d with
    | zero =>
      rw [List.getD_cons_zero] at hbad ⊢
      have hnd : ¬(ch.isDigit = true) := fun hdig => hbad (Or.inl hdig)
      have hndot : ¬(ch = '.' ∨ ch = '_') := fun hh => hbad (Or.inr hh)
      simp only [parseCells]
      rw [dif_pos h81, if_neg hnd, if_neg hndot]
      rfl
    | succ d' =>
      have hv0 : validCellChar ch := by
        have := hbefore 0 (by omega)
        rw [List.getD_cons_zero] at this
        exact this
      simp only [List.length_cons] at hd
      rw [List.getD_cons_succ] at hbad ⊢
      have hbefore' : ∀ e, e < d' → validCellChar (rest.getD e '0') := by
        intro e he
        have := hbefore (e + 1) (by omega)
        rw [List.getD_cons_succ] at this
        exact this
      simp only [parseCells]
      rw [dif_pos h81]
      rw [show idx + (d' + 1) = (idx + 1) + d' from by omega]
      rcases hv0 with hdg | hdot | hdot
      · rw [if_pos hdg]
        exact ih d' (idx + 1) _ (by omega) (by omega) hbefore' hbad
      · subst hdot
        rw [if_neg (by decide), if_pos (by decide)]
        exact ih d' (idx + 1) _ (by omega) (by omega) hbefore' hbad
      · subst hdot
        rw [if_neg (by decide), if_pos (by decide)]
        exact ih d' (idx + 1) _ (by omega) (by omega) hbefore' hbad

theorem parseCells_trailing : ∀ (cs : List Char) (idx : Nat) (g : Grid),
    81 - idx < cs.length → idx ≤ 81 →
    (∀ e, e < 81 - idx → validCellChar (cs.getD e '0')) →
    parseCells cs idx g = Except.error
      (SudokuError.parseTrailing (cs.getD (81 - idx) '0')) := by
  intro cs
  induction cs with
  | nil =>
    intro idx g hlt
    simp at hlt
  | cons ch rest ih =>
    intro idx g hlt hle hbefore
    by_cases h81 : idx < 81
    · have hv0 : validCellChar ch := by
        have := hbefore 0 (by omega)
        rw [List.getD_cons_zero] at this
        exact this
      simp only [List.length_cons] at hlt
      rw [show 81 - idx = (81 - (idx + 1)) + 1 from by omega, List.getD_cons_succ]
      have hbefore' : ∀ e, e < 81 - (idx + 1) → validCellChar (rest.getD e '0') := by
        intro e he
        have := hbefore (e + 1) (by omega)
        rw [List.getD_cons_succ] at this
        exact this
      simp only [parseCells]
      rw [dif_pos h81]
      rcases hv0 with hdg | hdot | hdot
      · rw [if_pos hdg]
        exact ih (idx + 1) _ (by omega) (by omega) hbefore'
      · subst hdot
        rw [if_neg (by decide), if_pos (by decide)]
        exact ih (idx + 1) _ (by omega) (by omega) hbefore'
      · subst hdot
        rw [if_neg (by decide), if_pos (by decide)]
        exact ih (idx + 1) _ (by omega) (by omega) hbefore'
    · have hidx : idx = 81 := by omega
      subst hidx
      simp only [parseCells]
      rw [dif_neg (by omega)]
      rw [show (81 : Nat) - 81 = 0 from by omega, List.getD_cons_zero]

theorem from_grid_error_shape {g : Grid} {e : SudokuError}
    (h : from_grid g = Except.error e) : e = SudokuError.invalidSudoku := by
  unfold from_grid at h
  split at h
  · exact absurd h (by simp)
  · exact (Except.error.inj h).symm

theorem from_str_of_parse_error {str : String} {e : SudokuError}
    (h : parseCells (meaningfulChars str) 0 zeroGrid = Except.error e) :
    from_str str = Except.error e := by
  unfold from_str
  rw [h]

theorem from_str_of_parse_ok {str : String} {g : Grid}
    (h : parseCells (meaningfulChars str) 0 zeroGrid = Except.ok g) :
    from_str str = from_grid g := by
  unfold from_str
  rw [h]

theorem getD_mem_of_lt {cs : List Char} (e : Nat) (he : e < cs.length) :
    cs.getD e '0' ∈ cs := by
  rw [List.getD_eq_getElem cs '0' he]
  exact List.getElem_mem he

/-- C8: the parser scans exactly 81 meaningful characters row-major —
`0`, `.`, `_` empty, `1`–`9` givens, `|` and whitespace skipped without
consuming a position — and fails with a positional `ParseError` exactly
when a non-ignored character outside this set is met (reported with its
row/column), when input ends before 81 cells are read (reported with the
position reached), or when a non-ignored character remains after the 81st
cell; with 81 valid characters it builds the denoted grid and hands it to
construction. -/
theorem from_str_scan_spec (str : String) :
    ((∃ e, from_str str = Except.error e ∧ e.isParse = true) ↔
      ¬((meaningfulChars str).length = 81 ∧
        ∀ c ∈ meaningfulChars str, validCellChar c)) ∧
    ((meaningfulChars str).length < 81 →
      (∀ c ∈ meaningfulChars str, validCellChar c) →
      from_str str = Except.error (SudokuError.parseEnd
        ((meaningfulChars str).length / 9) ((meaningfulChars str).length % 9))) ∧
    (∀ d : Nat, d < (meaningfulChars str).length → d < 81 →
      (∀ e, e < d → validCellChar ((meaningfulChars str).getD e '0')) →
      ¬ validCellChar ((meaningfulChars str).getD d '0') →
      from_str str = Except.error (SudokuError.parseChar
        ((meaningfulChars str).getD d '0') (d / 9) (d % 9))) ∧
    (81 < (meaningfulChars str).length →
      (∀ e, e < 81 → validCellChar ((meaningfulChars str).getD e '0')) →
      from_str str = Except.error (SudokuError.parseTrailing
        ((meaningfulChars str).getD 81 '0'))) ∧
    ((meaningfulChars str).length = 81 →
      (∀ c ∈ meaningfulChars str, validCellChar c) →
      from_str str = from_grid (fun r c : Fin 9 =>
        charVal ((meaningfulChars str).getD (r.val * 9 + c.val) '0'))) := by
  have heof : (meaningfulChars str).length < 81 →
      (∀ c ∈ meaningfulChars str, validCellChar c) →
      from_str str = Except.error (SudokuError.parseEnd
        ((meaningfulChars str).length / 9) ((meaningfulChars str).length % 9)) := by
    intro hlen hval
    have h := parseCells_eof (meaningfulChars str) 0 zeroGrid (by omega) hval
    rw [Nat.zero_add] at h
    exact from_str_of_parse_error h
  have hbadchar : ∀ d : Nat, d < (meaningfulChars str).length → d < 81 →
      (∀ e, e < d → validCellChar ((meaningfulChars str).getD e '0')) →
      ¬ validCellChar ((meaningfulChars str).getD d '0') →
      from_str str = Except.error (SudokuError.parseChar
        ((meaningfulChars str).getD d '0') (d / 9) (d % 9)) := by
    intro d hdlen hd81 hbefore hbad
    have h := parseCells_badchar (meaningfulChars str) d 0 zeroGrid hdlen
      (by omega) hbefore hbad
    rw [Nat.zero_add] at h
    exact from_str_of_parse_error h
  have htrail : 81 < (meaningfulChars str).length →
      (∀ e, e < 81 → validCellChar ((meaningfulChars str).getD e '0')) →
      from_str str = Except.error (SudokuError.parseTrailing
        ((meaningfulChars str).getD 81 '0')) := by
    intro hlen hval
    have h := parseCells_trailing (meaningfulChars str) 0 zeroGrid
      (by omega) (by omega) (by simpa using hval)
    simpa using from_str_of_parse_error h
  have hok : (meaningfulChars str).length = 81 →
      (∀ c ∈ meaningfulChars str, validCellChar c) →
      from_str str = from_grid (fun r c : Fin 9 =>
        charVal ((meaningfulChars str).getD (r.val * 9 + c.val) '0')) := by
    intro hlen hval
    have h := parseCells_ok (meaningfulChars str) 0 zeroGrid (by omega) hval
    rw [from_str_of_parse_ok h]
    congr 1
  refine ⟨?_, heof, hbadchar, htrail, hok⟩
  constructor
  · rintro ⟨e, herr, hparse⟩ ⟨hlen, hval⟩
    rw [hok hlen hval] at herr
    rw [from_grid_error_shape herr] at hparse
    exact Bool.noConfusion hparse
  · intro hncond
    by_cases hval : ∀ c ∈ meaningfulChars str, validCellChar c
    · have hlen : (meaningfulChars str).length ≠ 81 := fun hl => hncond ⟨hl, hval⟩
      rcases Nat.lt_or_ge (meaningfulChars str).length 81 with hlt | hge
      · exact ⟨_, heof hlt hval, rfl⟩
      · have hgt : 81 < (meaningfulChars str).length := by omega
        refine ⟨_, htrail hgt ?_, rfl⟩
        intro e he
        exact hval _ (getD_mem_of_lt e (by omega))
    · push_neg at hval
      obtain ⟨c0, hc0mem, hc0bad⟩ := hval
      have hPex : ∃ e, e < (meaningfulChars str).length ∧
          ¬ validCellChar ((meaningfulChars str).getD e '0') := by
        rcases List.mem_iff_getElem.mp hc0mem with ⟨n, hn, hget⟩
        refine ⟨n, hn, ?_⟩
        rw [List.getD_eq_getElem _ '0' hn, hget]
        exact hc0bad
      classical
      let d := Nat.find hPex
      obtain ⟨hdlen, hdbad⟩ : d < (meaningfulChars str).length ∧
          ¬ validCellChar ((meaningfulChars str).getD d '0') := Nat.find_spec hPex
      have hdmin : ∀ e, e < d → validCellChar ((meaningfulChars str).getD e '0') := by
        intro e he
        have := Nat.find_min hPex he
        by_contra hbad
        exact this ⟨by omega, hbad⟩
      rcases Nat.lt_or_ge d 81 with hd81 | hd81
      · exact ⟨_, hbadchar d hdlen hd81 hdmin hdbad, rfl⟩
      · have hgt : 81 < (meaningfulChars str).length := by omega
        refine ⟨_, htrail hgt ?_, rfl⟩
        intro e he
        exact hdmin e (by omega)

theorem from_str_scan_spec_witness :
    (meaningfulChars "12").length < 81 ∧
    from_str "12" = Except.error (SudokuError.parseEnd 0 2) := by
  refine ⟨by decide, ?_⟩
  have h := (from_str_scan_spec "12").2.1 (by decide) (by decide)
  rw [show (meaningfulChars "12").length = 2 from by decide] at h
  exact h

theorem toString_digit : ∀ v : Nat, 1 ≤ v → v ≤ 9 →
    (toString v).toList = [Char.ofNat (v + 48)] := by
  intro v h1 h9
  interval_cases v <;> decide

theorem digitChar_not_ignored : ∀ v : Nat, 1 ≤ v → v ≤ 9 →
    (!rustIsWhitespace (Char.ofNat (v + 48)) && Char.ofNat (v + 48) != '|') = true := by
  intro v h1 h9
  interval_cases v <;> decide

theorem digitChar_valid : ∀ v : Nat, 1 ≤ v → v ≤ 9 →
    validCellChar (Char.ofNat (v + 48)) := by
  intro v h1 h9
  interval_cases v <;> decide

theorem charVal_digitChar : ∀ v : Nat, 1 ≤ v → v ≤ 9 →
    charVal (Char.ofNat (v + 48)) = v := by
  intro v h1 h9
  interval_cases v <;> decide

theorem intercalate_cons_two (sep x y : List Char) (zs : List (List Char)) :
    List.intercalate sep (x :: y :: zs) = x ++ sep ++ List.intercalate sep (y :: zs) := by
  simp [List.intercalate, List.intersperse_cons_cons]

theorem filter_intercalate_sep (p : Char → Bool) (sep : Char) (hsep : p sep = false) :
    ∀ rows : List (List Char),
      (List.intercalate [sep] rows).filter p = rows.flatMap fun r => r.filter p := by
  intro rows
  induction rows with
  | nil => simp [List.intercalate]
  | cons x rest ih =>
    cases rest with
    | nil => simp [List.intercalate]
    | cons y zs =>
      rw [intercalate_cons_two, List.flatMap_cons, List.filter_append,
        List.filter_append, ih]
      simp [List.filter_cons, hsep]

theorem flatMap_singleton_eq_map {A B : Type} (l : List A) (f : A → B) :
    (l.flatMap fun a => [f a]) = l.map f := by
  induction l with
  | nil => rfl
  | cons x t ih => rw [List.flatMap_cons, List.map_cons, List.singleton_append, ih]

/-- The 81 digit characters of a board's plain serialization, row-major. -/
def digitsList (b : Sudoku) : List Char :=
  (List.finRange 9).flatMap fun i =>
    (List.finRange 9).map fun j => Char.ofNat (b.grid i j + 48)

theorem meaningful_display (b : Sudoku)
    (hval : ∀ r c : Fin 9, 1 ≤ b.grid r c ∧ b.grid r c ≤ 9) :
    meaningfulChars (displayPlain b) = digitsList b := by
  unfold meaningfulChars displayPlain digitsList
  show (List.intercalate ['\n'] _).filter _ = _
  rw [filter_intercalate_sep _ '\n' (by decide), List.flatMap_map]
  congr 1
  funext i
  rw [show (fun j : Fin 9 => (toString (b.grid i j)).toList)
      = (fun j : Fin 9 => [Char.ofNat (b.grid i j + 48)]) from
    funext fun j => toString_digit _ (hval i j).1 (hval i j).2]
  rw [flatMap_singleton_eq_map]
  apply List.filter_eq_self.mpr
  intro c hc
  rcases List.mem_map.mp hc with ⟨j, -, rfl⟩
  exact digitChar_not_ignored _ (hval i j).1 (hval i j).2

theorem getD_flatMap_map {A B C : Type} (outer : List A) (inner : List B)
    (f : A → B → C) (dflt : C) :
    ∀ (oi ii : Nat) (ho : oi < outer.length) (hi : ii < inner.length),
      (outer.flatMap fun a => inner.map fun b => f a b).getD
          (oi * inner.length + ii) dflt
        = f (outer.get ⟨oi, ho⟩) (inner.get ⟨ii, hi⟩) := by
  induction outer with
  | nil =>
    intro oi ii ho hi
    simp at ho
  | cons a rest ih =>
    intro oi ii ho hi
    rw [List.flatMap_cons]
    cases oi with
    | zero =>
      rw [Nat.zero_mul, Nat.zero_add]
      rw [List.getD_append _ _ _ _ (by rw [List.length_map]; exact hi)]
      rw [List.getD_eq_getElem _ _ (by rw [List.length_map]; exact hi),
        List.getElem_map]
      rfl
    | succ oi2 =>
      rw [Nat.succ_mul]
      rw [List.getD_append_right _ _ _ _
        (by rw [List.length_map]; omega)]
      rw [List.length_map]
      rw [show oi2 * inner.length + inner.length + ii - inner.length
        = oi2 * inner.length + ii from by omega]
      exact ih oi2 ii (by simpa using ho) hi

/-- A concrete fully solved board with empty hint sets. -/
def fullBoard : Sudoku := { grid := solvedGrid, hints := fun _ _ _ => false }

/-- Parsing the plain serialization of a fully solved board always
succeeds and yields the `from_grid` reconstruction of its grid. -/
theorem from_str_display_solved (b : Sudoku) (hsol : is_solved b = true) :
    from_str (displayPlain b) = Except.ok (mkBoard b.grid) := by
  have hsg : SolvedGrid b.grid := (is_solved_iff b).mp hsol
  have hvals : ∀ r c : Fin 9, 1 ≤ b.grid r c ∧ b.grid r c ≤ 9 := by
    intro r c
    rcases hsg r c with ⟨hnz, hv⟩
    have h9 := ((is_valid_at_iff b.grid (b.grid r c) r c).mp hv).1
    omega
  have hcs := meaningful_display b hvals
  have hlen : (digitsList b).length = 81 := by
    unfold digitsList
    rw [List.length_flatMap]
    simp only [Function.comp_def, List.length_map, List.length_finRange]
    decide
  have hvalc : ∀ c ∈ digitsList b, validCellChar c := by
    intro c hc
    unfold digitsList at hc
    rcases List.mem_flatMap.mp hc with ⟨i, -, hc2⟩
    rcases List.mem_map.mp hc2 with ⟨j, -, rfl⟩
    exact digitChar_valid _ (hvals i j).1 (hvals i j).2
  have hparse := parseCells_ok (meaningfulChars (displayPlain b)) 0 zeroGrid
    (by rw [hcs, hlen]) (by rw [hcs]; exact hvalc)
  have hfs := from_str_of_parse_ok hparse
  have hgeq : (fun r c : Fin 9 =>
      if r.val * 9 + c.val < 0 then zeroGrid r c
      else charVal ((meaningfulChars (displayPlain b)).getD (r.val * 9 + c.val - 0) '0'))
      = b.grid := by
    funext r c
    rw [if_neg (Nat.not_lt_zero _), Nat.sub_zero, hcs]
    unfold digitsList
    have h := getD_flatMap_map (List.finRange 9) (List.finRange 9)
      (fun i j => Char.ofNat (b.grid i j + 48)) '0' r.val c.val
      (by rw [List.length_finRange]; exact r.isLt)
      (by rw [List.length_finRange]; exact c.isLt)
    rw [List.get_finRange, List.get_finRange] at h
    simp only [List.length_finRange, Fin.eta] at h
    rw [h]
    exact charVal_digitChar _ (hvals r c).1 (hvals r c).2
  have hfromgrid : from_grid b.grid = Except.ok (mkBoard b.grid) :=
    from_grid_eq_ok b.grid (fun i j _ => (hsg i j).2)
  rw [hfs, hgeq]
  exact hfromgrid

/-- Fill the listed cells with their `solvedGrid` values, in order, by
`put_at` (as the game does when the user enters those digits). -/
def fillSolved (l : List (Fin 9 × Fin 9)) (s : Sudoku) : Sudoku :=
  l.foldl (fun t p => put_at t (solvedGrid p.1 p.2) p.1 p.2) s

theorem reachable_fillSolved (l : List (Fin 9 × Fin 9)) :
    ∀ s : Sudoku, Reachable s →
      (∀ p ∈ l, 1 ≤ solvedGrid p.1 p.2 ∧ solvedGrid p.1 p.2 ≤ 9) →
      Reachable (fillSolved l s) := by
  induction l with
  | nil =>
    intro s hs _
    exact hs
  | cons p rest ih =>
    intro s hs hl
    have hstep : fillSolved (p :: rest) s
        = fillSolved rest (put_at s (solvedGrid p.1 p.2) p.1 p.2) := rfl
    rw [hstep]
    exact ih _
      (Reachable.place s _ p.1 p.2 hs (hl p (List.mem_cons_self p rest)).1
        (hl p (List.mem_cons_self p rest)).2)
      (fun q hq => hl q (List.mem_cons_of_mem p hq))

/-- A reachable fully solved board with a polluted candidate bit: place
`2` at `(0, 1)` (its `solvedGrid` value), place a conflicting `2` at
`(0, 0)`, remove `(0, 0)` — whose restore loop sets candidate `2` on the
occupied cell `(0, 1)` — then fill every other cell with its
`solvedGrid` value, none of which clears that bit. -/
def pollutedBoard : Sudoku :=
  fillSolved (allCells.filter fun p => decide (p ≠ ((0 : Fin 9), (1 : Fin 9))))
    (remove_at (put_at (put_at (mkBoard zeroGrid) 2 0 1) 2 0 0) 0 0).2

/-- C7 counterexample: a reachable, fully solved board whose plain
serialization does not parse back to an equal board — the stored
candidate `2` at the occupied cell `(0, 1)` (left behind by a
conflicting place/remove pair) is absent from the freshly constructed
parse result, and derived `PartialEq` compares the candidate sets. -/
theorem display_parse_roundtrip_cex :
    Reachable pollutedBoard ∧ is_solved pollutedBoard = true ∧
    from_str (displayPlain pollutedBoard) ≠ Except.ok pollutedBoard := by
  have hall : ∀ r c : Fin 9, pollutedBoard.grid r c = solvedGrid r c := by decide
  have hgrid : pollutedBoard.grid = solvedGrid :=
    funext fun r => funext fun c => hall r c
  have hpol : pollutedBoard.hints 0 1 1 = true := by decide
  have hsolved : is_solved pollutedBoard = true := by
    apply (is_solved_iff pollutedBoard).mpr
    rw [hgrid]
    decide
  have hreach : Reachable pollutedBoard := by
    apply reachable_fillSolved _ _ ?_ (by decide)
    apply Reachable.erase
    apply Reachable.place _ _ _ _ ?_ (by decide) (by decide)
    apply Reachable.place _ _ _ _ ?_ (by decide) (by decide)
    exact Reachable.construct zeroGrid _ (from_grid_eq_ok zeroGrid (by decide))
  refine ⟨hreach, hsolved, ?_⟩
  intro heq
  have h3 : mkBoard pollutedBoard.grid = pollutedBoard :=
    Except.ok.inj ((from_str_display_solved pollutedBoard hsolved).symm.trans heq)
  have h4 : (mkBoard pollutedBoard.grid).hints 0 1 1 = pollutedBoard.hints 0 1 1 := by
    rw [h3]
  rw [hgrid, hpol] at h4
  exact absurd h4 (by decide)

/-- C7 (amended): for every fully solved Board, parsing the plain
serialization succeeds and yields the Board freshly constructed from the
same grid (whose candidate sets are all empty, every cell being
occupied); the parsed Board is equal to the original precisely when the
original's candidate sets are all empty — which reachable solved boards
can violate — and re-serializing the parsed Board reproduces the text
byte for byte. -/
theorem display_parse_roundtrip (b : Sudoku) (hsol : is_solved b = true) :
    from_str (displayPlain b) = Except.ok (mkBoard b.grid) ∧
    (from_str (displayPlain b) = Except.ok b ↔ b.hints = fun _ _ _ => false) ∧
    displayPlain (mkBoard b.grid) = displayPlain b := by
  have hsg : SolvedGrid b.grid := (is_solved_iff b).mp hsol
  have hmain := from_str_display_solved b hsol
  refine ⟨hmain, ⟨?_, ?_⟩, rfl⟩
  · intro heq
    have h3 : mkBoard b.grid = b := Except.ok.inj (hmain.symm.trans heq)
    funext i j k
    show b.hints i j k = false
    have h4 : (mkBoard b.grid).hints i j k = b.hints i j k := by rw [h3]
    rw [← h4]
    show (if b.grid i j ≠ 0 then false else _) = false
    rw [if_pos (hsg i j).1]
  · intro hhints
    have hbeq : mkBoard b.grid = b := by
      refine sudoku_ext rfl ?_
      funext i j k
      show (if b.grid i j ≠ 0 then false else _) = b.hints i j k
      rw [if_pos (hsg i j).1, hhints]
    rw [hmain, hbeq]

theorem display_parse_roundtrip_witness :
    is_solved fullBoard = true ∧
    from_str (displayPlain fullBoard) = Except.ok fullBoard :=
  ⟨by decide, (display_parse_roundtrip fullBoard (by decide)).2.1.mpr rfl⟩

end RSudoku
